import Mathlib

/- Shallow embedding of helixerprep/datas/sequences.py: the k-mer profiling
   engine (MerCounter), reverse-complement computation, canonicalization,
   sequence slicing, and metadata aggregation.

   Modelling conventions: Python dicts with string keys are modelled as
   functions `String → Option Nat` (`none` means the key is absent); code
   that can raise returns `Except`; Python's `str` slicing/joining is
   modelled on `String.data` (`List Char`). -/

/-- The forward alphabet string `fw = "ACGTMRWSYKVHDBN"` of `reverse_complement`. -/
def fwStr : String := "ACGTMRWSYKVHDBN"

/-- The complement string `rv = "TGCAKYWSRMBDHVN"` of `reverse_complement`. -/
def rvStr : String := "TGCAKYWSRMBDHVN"

/-- Python `s.lower()` (character-wise ASCII lowering; every string this
program lowers is ASCII). -/
def pyLower (s : String) : String := ⟨s.data.map Char.toLower⟩

/-- The complement lookup dict `key` of `reverse_complement`, built by zipping
`fw + fw.lower()` with `rv + rv.lower()`. -/
def complement_table : List (Char × Char) :=
  ((fwStr ++ pyLower fwStr).data).zip ((rvStr ++ pyLower rvStr).data)

/-- Dict lookup `key[base]`; `none` models the Python `KeyError`. -/
def complement (base : Char) : Option Char :=
  complement_table.lookup base

/-- Loop body of `reverse_complement`: complement each character in order,
raising on the first character that is not in the table. -/
def rcAux : List Char → Except Char (List Char)
  | [] => Except.ok []
  | base :: rest =>
    match complement base with
    | some r =>
      match rcAux rest with
      | Except.ok t => Except.ok (r :: t)
      | Except.error e => Except.error e
    | none => Except.error base

/-- `reverse_complement(seq)`: complement every character of the reversed
sequence; a character outside the table raises (Python re-raises the
`KeyError`, naming the offending character). -/
def reverse_complement (seq : String) : Except Char String :=
  match rcAux seq.data.reverse with
  | Except.ok l => Except.ok ⟨l⟩
  | Except.error e => Except.error e

/-- Total complement function (defaults to the input character off the
table); proof-side companion of `complement`. -/
def compD (c : Char) : Char := (complement c).getD c

/-- Total reverse complement; agrees with `reverse_complement` on strings
over the supported alphabet (lemma `reverse_complement_eq_ok`). -/
def rcF (s : String) : String := ⟨s.data.reverse.map compD⟩

/-- Python `s[i:j]` for non-negative indices (clamping at the ends). -/
def pySlice (s : String) (i j : Nat) : String := ⟨(s.data.drop i).take (j - i)⟩

/-- CPython string comparison `a < b`: lexicographic by code point. -/
def lexLtb : List Char → List Char → Bool
  | [], [] => false
  | [], _ :: _ => true
  | _ :: _, [] => false
  | a :: as, b :: bs => if a < b then true else if b < a then false else lexLtb as bs

/-- Python `a < b` on strings. -/
def pyLt (a b : String) : Bool := lexLtb a.data b.data

/-- Python `min(a, b)` on strings: the second argument only when it is
strictly smaller. -/
def pyMin (a b : String) : String := if pyLt b a then b else a

/-- Python `text.split(sep)` for a one-character separator: split on every
occurrence, keeping empty fields. -/
def splitChar (sep : Char) : List Char → List (List Char)
  | [] => [[]]
  | c :: rest =>
    match splitChar sep rest with
    | [] => [[]]
    | h :: t => if c = sep then [] :: h :: t else (c :: h) :: t

/-- `itertools.product('atcg', repeat=k)`: all length-`k` character tuples
over a,t,c,g in product order. -/
def mersLists : Nat → List (List Char)
  | 0 => [[]]
  | k + 1 => (['a', 't', 'c', 'g']).flatMap fun c => (mersLists k).map (c :: ·)

/-- The `4^k` recognized keys installed by `MerCounter.__init__`, in
insertion order (each tuple joined to a string). -/
def allMers (k : Nat) : List String := (mersLists k).map fun l => ⟨l⟩

/-- The `MerCounter` object: word length `k` and the `counts` dict. -/
structure MerCounter where
  k : Nat
  counts : String → Option Nat

/-- The class attribute `MerCounter.amb = 'ambiguous_mers'`. -/
def MerCounter.amb : String := "ambiguous_mers"

/-- `MerCounter.__init__(k)`: every possible mer of length `k` plus the
ambiguous bucket is a key with count 0. -/
def MerCounter.init (k : Nat) : MerCounter :=
  ⟨k, fun s => if s ∈ allMers k ∨ s = MerCounter.amb then some 0 else none⟩

/-- `MerCounter.add_mer(mer)`: `try: counts[mer] += 1` and on `KeyError`
(the mer is not a key) `counts[amb] += 1`.  The ambiguous bucket is always
a key of `counts` (set in `__init__`, and no key is ever added or removed
before `export`), so the `Option.map` on the amb entry never misses. -/
def MerCounter.add_mer (self : MerCounter) (mer : String) : MerCounter :=
  match self.counts mer with
  | some n => { self with counts := fun s => if s = mer then some (n + 1) else self.counts s }
  | none =>
    { self with
      counts := fun s =>
        if s = MerCounter.amb then (self.counts MerCounter.amb).map (· + 1)
        else self.counts s }

/-- `gen_mers(sequence, k)`: all width-`k` windows, step 1.  Python's
`range(len(sequence) - k + 1)` computes the bound in ℤ and clamps negative
bounds to the empty range, which on ℕ is `len + 1 - k`. -/
def gen_mers (sequence : String) (k : Nat) : List String :=
  (List.range (sequence.length + 1 - k)).map fun i => pySlice sequence i (i + k)

/-- `MerCounter.add_sequence(sequence)`: count every window. -/
def MerCounter.add_sequence (self : MerCounter) (sequence : String) : MerCounter :=
  (gen_mers sequence self.k).foldl MerCounter.add_mer self

/-- `out.pop(key)` on a dict. -/
def dict_pop (d : String → Option Nat) (key : String) : String → Option Nat :=
  fun s => if s = key then none else d s

/-- `out[key] += v` on a dict (the key is present at every use site in
`export`, see `export_canonical`; a missing key would be a Python
`KeyError`). -/
def dict_addTo (d : String → Option Nat) (key : String) (v : Nat) : String → Option Nat :=
  fun s => if s = key then (d key).map (· + v) else d s

/-- One iteration of the `export` loop over `self.counts`' keys. -/
def MerCounter.export_step (out : String → Option Nat) (key : String) :
    Except Char (String → Option Nat) :=
  if key = MerCounter.amb then Except.ok out
  else
    match reverse_complement key with
    | Except.error e => Except.error e
    | Except.ok rc_key =>
      if key ≠ pyMin key rc_key then
        Except.ok (dict_pop (dict_addTo out rc_key ((out key).getD 0)) key)
      else Except.ok out

/-- `MerCounter.export()`: collapse to canonical kmers.  Iterates over the
keys of `self.counts`, which are exactly those installed by `__init__`
(`allMers k` then the ambiguous bucket, in insertion order: `add_mer`
never inserts a new key). -/
def MerCounter.export_counts (self : MerCounter) :
    Except Char (String → Option Nat) :=
  (allMers self.k ++ [MerCounter.amb]).foldlM MerCounter.export_step self.counts

/-- Python `range(0, stop, step)` for `step > 0` (`range` with a zero step
raises; every call site passes a positive literal). -/
def pyRangeStep (stop step : Nat) : List Nat :=
  List.range' 0 ((stop + step - 1) / step) step

/-- `chunk_str(string, length)`: `string[i:(i+length)]` for
`i in range(0, len(string), length)`. -/
def chunk_str (string : String) (length : Nat) : List String :=
  (pyRangeStep string.length length).map fun i => pySlice string i (i + length)

/-- Python `''.join(subseqs)`. -/
def pyJoin (subseqs : List String) : String := ⟨(subseqs.map String.data).flatten⟩

/-- A `SequenceSlice`: text chunks, id, half-open coordinates and
processing-set label (`none` until `add_slice` assigns one). -/
structure SequenceSlice where
  sequence : List String
  slice_id : String
  start : Nat
  stop : Nat
  processing_set : Option String

/-- `SequenceSlice.add_sequence(sequence, seqid)` on a fresh slice: chunked
text, `start = 0`, `end = len(sequence)` (the Python attribute `end` is
named `stop` here because `end` is a Lean keyword). -/
def SequenceSlice.add_sequence (sequence : String) (seqid : String) : SequenceSlice :=
  ⟨chunk_str sequence 100, seqid, 0, sequence.length, none⟩

/-- `SequenceSlice.add_slice(sequence, slice_id, start, end, processing_set)`
on a fresh slice. -/
def SequenceSlice.add_slice (sequence slice_id : String) (start stop : Nat)
    (processing_set : String) : SequenceSlice :=
  ⟨chunk_str sequence 100, slice_id, start, stop, some processing_set⟩

/-- Shared numeric/histogram fields of `MetaInfoSeqLike`.  The nested
`cannonical_kmer_content` dict (`str(k)` to canonical histogram) is a
function-modelled dict of dicts. -/
structure MetaInfoSeqLike where
  total_bp : Nat
  gc_content : Nat
  cannonical_kmer_content : String → Option (String → Option Nat)
  ambiguous_content : Nat

/-- `MetaInfoSequence` adds the header-derived fields. -/
structure MetaInfoSequence extends MetaInfoSeqLike where
  deprecated_header : String
  seqid : String

/-- `MetaInfoSequence.__init__`: zero counts, empty dicts and strings. -/
def MetaInfoSequence.init : MetaInfoSequence :=
  ⟨⟨0, 0, fun _ => none, 0⟩, "", ""⟩

/-- `MetaInfoGenome` adds the genome identification fields. -/
structure MetaInfoGenome extends MetaInfoSeqLike where
  species : String
  accession : String
  version : String
  acquired_from : String

/-- `MetaInfoGenome.__init__`. -/
def MetaInfoGenome.init : MetaInfoGenome :=
  ⟨⟨0, 0, fun _ => none, 0⟩, "", "", "", ""⟩

/-- CPython `str.replace(old, new)` scan: left-to-right, non-overlapping,
every occurrence.  Structural fuel (`s.length` at the top call) stands in
for the well-founded recursion; it never runs out for a non-empty pattern
because each step consumes at least one character. -/
def pyReplaceAux (pat rep : List Char) : Nat → List Char → List Char
  | _, [] => []
  | 0, s => s
  | fuel + 1, c :: rest =>
    if pat.isPrefixOf (c :: rest) then
      rep ++ pyReplaceAux pat rep fuel ((c :: rest).drop pat.length)
    else c :: pyReplaceAux pat rep fuel rest

/-- Python `s.replace(old, new)` (for non-empty `old`, the only shape used). -/
def pyReplace (s old new : String) : String :=
  ⟨pyReplaceAux old.data new.data s.data.length s.data⟩

/-- Python `s.endswith(suffix)`. -/
def pyEndswith (s suffix : String) : Bool := decide (suffix.data <:+ s.data)

/-- `MetaInfoGenome.species_from_path(fasta_path)`: basename after the last
`/`, then `replace('.fasta', '')` when the name ends with `.fasta`, else
`replace('.fa', '')` when it ends with `.fa`, else the name unchanged. -/
def species_from_path (fasta_path : String) : String :=
  let fasta_path :=
    if '/' ∈ fasta_path.data then ⟨(splitChar '/' fasta_path.data).getLastD []⟩
    else fasta_path
  if pyEndswith fasta_path ".fasta" then pyReplace fasta_path ".fasta" ""
  else if pyEndswith fasta_path ".fa" then pyReplace fasta_path ".fa" ""
  else fasta_path

/-- `MetaInfoGenome.maybe_add_info_from_fasta(fasta)`: default the species
label from the path only when no label is set (`not self.species`, i.e.
the empty string). -/
def MetaInfoGenome.maybe_add_info_from_fasta (self : MetaInfoGenome)
    (fasta : String) : MetaInfoGenome :=
  if self.species = "" then { self with species := species_from_path fasta }
  else self

/-- Modelled from the spec: `add_paired_dictionaries` (imported from
`helixerprep.core.structure`, which is not part of the given sources) on
the innermost count dicts — "summing counts for keys present in either
side; keys present only on one side are carried through unchanged". -/
def add_paired_counts (a b : String → Option Nat) : String → Option Nat :=
  fun s =>
    match a s, b s with
    | some x, some y => some (x + y)
    | some x, none => some x
    | none, y => y

/-- Modelled from the spec: `add_paired_dictionaries` on the outer
per-`k` dict — merged key-wise per `k`, pairing the inner histograms. -/
def add_paired_dictionaries (a b : String → Option (String → Option Nat)) :
    String → Option (String → Option Nat) :=
  fun s =>
    match a s, b s with
    | some x, some y => some (add_paired_counts x y)
    | some x, none => some x
    | none, y => y

/-- `MetaInfoGenome.add_sequence_meta_info(seq_met_info)`: add the numeric
fields and merge the canonical k-mer dicts.  It reads only the
`MetaInfoSeqLike` fields of its argument (Python passes a
`MetaInfoSequence`). -/
def MetaInfoGenome.add_sequence_meta_info (self : MetaInfoGenome)
    (seq_met_info : MetaInfoSeqLike) : MetaInfoGenome :=
  { self with
    total_bp := self.total_bp + seq_met_info.total_bp
    gc_content := self.gc_content + seq_met_info.gc_content
    cannonical_kmer_content :=
      add_paired_dictionaries self.cannonical_kmer_content
        seq_met_info.cannonical_kmer_content
    ambiguous_content := self.ambiguous_content + seq_met_info.ambiguous_content }

/-- Modelled from the spec: the per-sequence pairwise combination that a
grouped (parallel-reduction) accumulation uses — component-wise sums and
the key-wise dict merge of §4.7. -/
def seqlike_merge (a b : MetaInfoSeqLike) : MetaInfoSeqLike :=
  ⟨a.total_bp + b.total_bp, a.gc_content + b.gc_content,
    add_paired_dictionaries a.cannonical_kmer_content b.cannonical_kmer_content,
    a.ambiguous_content + b.ambiguous_content⟩

/-- One iteration of the k-mer loop of `calculate_and_set_meta`: profile
the text with a fresh `MerCounter(k)`, export, and store under `str(k)`;
an `export` failure propagates. -/
def kmer_fold_step (sequence : String)
    (acc : String → Option (String → Option Nat)) (k : Nat) :
    Except Char (String → Option (String → Option Nat)) :=
  match MerCounter.export_counts ((MerCounter.init k).add_sequence sequence) with
  | Except.ok ex => Except.ok fun s => if s = toString k then some ex else acc s
  | Except.error e => Except.error e

/-- `MetaInfoSequence.calculate_and_set_meta(sequence, smallest_mer,
largest_mer)`: count G/C and non-a/t/c/g characters, then one canonical
k-mer histogram per `k in range(smallest_mer, largest_mer + 1)` (keyed by
`str(k)`); a `reverse_complement` failure inside `export` propagates. -/
def calculate_and_set_meta (self : MetaInfoSequence) (sequence : String)
    (smallest_mer largest_mer : Nat) : Except Char MetaInfoSequence :=
  let gc := sequence.data.countP fun bp => bp.toLower ∈ (['g', 'c'] : List Char)
  let ambiguous := sequence.data.countP fun bp => bp ∉ (['a', 't', 'c', 'g'] : List Char)
  match (List.range' smallest_mer (largest_mer + 1 - smallest_mer)).foldlM
      (kmer_fold_step sequence) fun _ => none with
  | Except.ok content => Except.ok { self with
      gc_content := gc
      ambiguous_content := ambiguous
      cannonical_kmer_content := content }
  | Except.error e => Except.error e

/-- `MetaInfoSequence.add_sequence(fasta_header, sequence, id_delim=' ',
smallest_mer, largest_mer)`: record the header, derive the seqid as the
token before the first space, set `total_bp`, and compute the statistics
over the lower-cased text. -/
def MetaInfoSequence.add_sequence (self : MetaInfoSequence)
    (fasta_header sequence : String) (smallest_mer largest_mer : Nat) :
    Except Char MetaInfoSequence :=
  calculate_and_set_meta
    { self with
      deprecated_header := fasta_header
      seqid := ⟨(splitChar ' ' fasta_header.data).headD []⟩
      total_bp := sequence.length }
    (pyLower sequence) smallest_mer largest_mer

/-- A `StructuredSequence`: its slices and per-sequence meta info. -/
structure StructuredSequence where
  slices : List SequenceSlice
  meta_info : MetaInfoSequence

/-- `StructuredSequence.__init__`. -/
def StructuredSequence.init : StructuredSequence :=
  ⟨[], MetaInfoSequence.init⟩

/-- `StructuredSequence.add_sequence(fasta_header, sequence, smallest_mer,
largest_mer)`: fresh meta info plus one unsliced slice appended. -/
def StructuredSequence.add_sequence (self : StructuredSequence)
    (fasta_header sequence : String) (smallest_mer largest_mer : Nat) :
    Except Char StructuredSequence :=
  match MetaInfoSequence.add_sequence MetaInfoSequence.init fasta_header
      sequence smallest_mer largest_mer with
  | Except.ok meta => Except.ok { self with
      meta_info := meta
      slices := self.slices ++ [SequenceSlice.add_sequence sequence meta.seqid] }
  | Except.error e => Except.error e

/-- `StructuredSequence.full_sequence()`: join all chunks of all slices. -/
def full_sequence (self : StructuredSequence) : String :=
  pyJoin (self.slices.flatMap SequenceSlice.sequence)

/-- `StructuredSequence.seq_hash()`: the hex digest of the full sequence.
`hashlib.md5(...).hexdigest()` is an external library call, abstracted as
the function parameter `H`. -/
def seq_hash (H : String → String) (self : StructuredSequence) : String :=
  H (full_sequence self)

/-- Modelled from the spec: the processing-set label choice of
`CoordinateGenerator` (from `helixerprep.core.partitions`, not part of the
given sources) — a label from the fixed set {train, validate, test},
reproducibly determined by the seed and the segment index (§4.2). -/
def chooseSet (seed : String) (i : Nat) : String :=
  match (seed.data.foldl (fun a c => (a * 31 + c.toNat) % 97) 7 + i) % 3 with
  | 0 => "train"
  | 1 => "validate"
  | _ => "test"

/-- Modelled from the spec: `CoordinateGenerator.divvy_coordinates(seed, L)`
with bound `max_len` (from `helixerprep.core.partitions`, not part of the
given sources) — an ordered sequence of `(begin, end, processing_set)`
triples with `begin_0 = 0`, `end_i = begin_(i+1)`, final `end = L`, each
length in `(0, max_len]`, labels seed-determined (§4.2): here, segments of
width `max_len` with a shorter final segment. -/
def divvy_coordinates (seed : String) (L max_len : Nat) :
    List (Nat × Nat × String) :=
  (List.range ((L + max_len - 1) / max_len)).map fun i =>
    (i * max_len, min ((i + 1) * max_len) L, chooseSet seed i)

/-- `StructuredSequence.divvy_up_coords(user_seed, max_len)`: derived seed
`seq_hash + user_seed`, then the generator's coordinates over `total_bp`. -/
def divvy_up_coords (H : String → String) (self : StructuredSequence)
    (user_seed : String) (max_len : Nat) : List (Nat × Nat × String) :=
  divvy_coordinates (seq_hash H self ++ user_seed) self.meta_info.total_bp max_len

/-- `StructuredSequence.divvy_up_sequence(user_seed, max_len)`: slice the
full text along the divvied coordinates, with ids from a fresh `IDMaker`.
The id allocator (`helixerprep.core.helpers.IDMaker`, not part of the
given sources) is modelled from the spec: prefix `seqid + '_'` followed by
a zero-based increasing counter (§4.3). -/
def divvy_up_sequence (H : String → String) (self : StructuredSequence)
    (user_seed : String) (max_len : Nat) : StructuredSequence :=
  let sequence := full_sequence self
  let coords := divvy_up_coords H self user_seed max_len
  let slices := coords.enum.map fun p =>
    SequenceSlice.add_slice (pySlice sequence p.2.1 p.2.2.1)
      (self.meta_info.seqid ++ "_" ++ toString p.1) p.2.1 p.2.2.1 p.2.2.2
  { self with slices := slices }

/-- An arbitrary raw histogram over `MerCounter`'s key set: all `4^k`
recognized mers plus the ambiguous bucket, with value function `f`.
Every dict reachable by `__init__` + `add_mer` has this shape. -/
def rawHist (k : Nat) (f : String → Nat) : String → Option Nat :=
  fun s => if s ∈ allMers k ∨ s = MerCounter.amb then some (f s) else none

/-- Invariant of the `export` loop after the keys of `p` have been
processed: a processed key that is lexicographically above its reverse
complement has been popped and its count absorbed by the partner; the
ambiguous bucket and all other entries are untouched. -/
def exportInv (k : Nat) (f : String → Nat) (p : List String)
    (d : String → Option Nat) : Prop :=
  d MerCounter.amb = some (f MerCounter.amb) ∧
  (∀ s ∈ allMers k,
    d s = if s ∈ p ∧ lexLtb (rcF s).data s.data = true then none
      else some (f s +
        if rcF s ∈ p ∧ lexLtb s.data (rcF s).data = true then f (rcF s) else 0)) ∧
  (∀ s, s ∉ allMers k → s ≠ MerCounter.amb → d s = none)

/-- The keys of a `MerCounter` histogram, in insertion order. -/
def histKeys (k : Nat) : List String := allMers k ++ [MerCounter.amb]

/-- The sum of all counts of a `MerCounter` histogram. -/
def histTotal (mc : MerCounter) : Nat :=
  ((histKeys mc.k).map fun s => (mc.counts s).getD 0).sum

/-- The dict of a `MerCounter` keeps exactly the keys installed by
`__init__`. -/
def KeyedHist (mc : MerCounter) : Prop :=
  ∀ s, (mc.counts s).isSome ↔ (s ∈ allMers mc.k ∨ s = MerCounter.amb)

/-! ### Lemmas about the complement table -/

/-- A successful dict lookup returns a pair of the association list. -/
theorem lookup_mem {l : List (Char × Char)} {a b : Char}
    (h : l.lookup a = some b) : (a, b) ∈ l := by
  induction l with
  | nil => simp [List.lookup] at h
  | cons p t ih =>
    obtain ⟨k, v⟩ := p
    by_cases hk : a == k
    · have : a = k := by simpa using hk
      subst this
      simp [List.lookup, hk] at h
      subst h
      exact List.mem_cons_self _ _
    · simp [List.lookup, hk] at h
      exact List.mem_cons_of_mem _ (ih h)

/-- Every value of the table maps back to its key: the IUPAC complement
table is an involution. -/
theorem table_involutive : ∀ p ∈ complement_table, complement p.2 = some p.1 := by decide

/-- Supported characters have complements. -/
theorem table_keys_good : ∀ p ∈ complement_table, (complement p.1).isSome ∧ compD p.1 = p.2 := by decide

/-- The complement of a supported character is supported, and complementing
twice is the identity. -/
theorem compD_compD {c : Char} (h : (complement c).isSome) :
    (complement (compD c)).isSome ∧ compD (compD c) = c := by
  obtain ⟨d, hd⟩ := Option.isSome_iff_exists.mp h
  have hmem : (c, d) ∈ complement_table := lookup_mem hd
  have hback := table_involutive _ hmem
  have h1 : compD c = d := by simp [compD, hd]
  constructor
  · rw [h1]; simp [hback]
  · rw [h1]; simp [compD, hback]

/-- `rcAux` succeeds on a supported list and computes the character-wise
complement. -/
theorem rcAux_ok_of_good :
    ∀ l : List Char, (∀ c ∈ l, (complement c).isSome) →
      rcAux l = Except.ok (l.map compD) := by
  intro l
  induction l with
  | nil => intro _; rfl
  | cons c t ih =>
    intro h
    have hc := h c (by simp)
    obtain ⟨d, hd⟩ := Option.isSome_iff_exists.mp hc
    have ht := ih fun x hx => h x (by simp [hx])
    simp [rcAux, hd, ht, compD]

/-- A `rcAux` failure names a character of the input that has no
complement. -/
theorem rcAux_error_mem :
    ∀ l : List Char, ∀ e, rcAux l = Except.error e → e ∈ l ∧ complement e = none := by
  intro l
  induction l with
  | nil => intro e h; simp [rcAux] at h
  | cons c t ih =>
    intro e h
    rw [rcAux] at h
    cases hc : complement c with
    | none =>
      rw [hc] at h
      simp at h
      subst h
      exact ⟨by simp, hc⟩
    | some d =>
      rw [hc] at h
      cases ht : rcAux t with
      | ok v => rw [ht] at h; simp at h
      | error e' =>
        rw [ht] at h
        simp at h
        subst h
        obtain ⟨h1, h2⟩ := ih e' ht
        exact ⟨by simp [h1], h2⟩

/-- An unsupported character in the input makes `rcAux` fail. -/
theorem rcAux_error_of_bad :
    ∀ l : List Char, (∃ c ∈ l, complement c = none) →
      ∃ e, rcAux l = Except.error e := by
  intro l
  induction l with
  | nil => rintro ⟨c, h, -⟩; simp at h
  | cons c t ih =>
    rintro ⟨x, hx, hbad⟩
    rw [rcAux]
    cases hc : complement c with
    | none => exact ⟨c, rfl⟩
    | some d =>
      have hxt : x ∈ t := by
        rcases List.mem_cons.mp hx with h | h
        · subst h; rw [hc] at hbad; simp at hbad
        · exact h
      obtain ⟨e, he⟩ := ih ⟨x, hxt, hbad⟩
      exact ⟨e, by rw [he]⟩

/-- On a supported string `reverse_complement` succeeds and equals the
total function `rcF`. -/
theorem reverse_complement_eq_ok {s : String}
    (h : ∀ c ∈ s.data, (complement c).isSome) :
    reverse_complement s = Except.ok (rcF s) := by
  have := rcAux_ok_of_good s.data.reverse fun c hc => h c (List.mem_reverse.mp hc)
  simp [reverse_complement, this, rcF]

/-- Characters of the supported alphabet have complements. -/
theorem alphabet_good : ∀ c ∈ (fwStr ++ pyLower fwStr).data, (complement c).isSome := by decide

/-- C3: for every string all of whose characters lie in the supported
IUPAC complement alphabet (ACGTMRWSYKVHDBN in either case),
`reverse_complement(reverse_complement(s)) == s`. -/
theorem reverse_complement_involution (s : String)
    (h : ∀ c ∈ s.data, c ∈ (fwStr ++ pyLower fwStr).data) :
    (reverse_complement s).bind reverse_complement = Except.ok s := by
  have hgood : ∀ c ∈ s.data, (complement c).isSome := fun c hc => alphabet_good c (h c hc)
  have h1 : reverse_complement s = Except.ok (rcF s) := reverse_complement_eq_ok hgood
  have hgood' : ∀ c ∈ (rcF s).data, (complement c).isSome := by
    intro c hc
    simp only [rcF, List.mem_map, List.mem_reverse] at hc
    obtain ⟨x, hx, rfl⟩ := hc
    exact (compD_compD (hgood x hx)).1
  have h2 : reverse_complement (rcF s) = Except.ok (rcF (rcF s)) :=
    reverse_complement_eq_ok hgood'
  have h3 : rcF (rcF s) = s := by
    show (⟨(rcF s).data.reverse.map compD⟩ : String) = s
    have : (rcF s).data.reverse.map compD = s.data := by
      show ((s.data.reverse.map compD : List Char)).reverse.map compD = s.data
      rw [← List.map_reverse, List.reverse_reverse, List.map_map]
      calc s.data.map (compD ∘ compD)
          = s.data.map id := by
            apply List.map_congr_left
            intro x hx
            exact (compD_compD (hgood x hx)).2
        _ = s.data := List.map_id s.data
    rw [this]
  rw [h1]
  show reverse_complement (rcF s) = Except.ok s
  rw [h2, h3]

/-- Witness for C3 at a concrete supported string. -/
theorem reverse_complement_involution_witness :
    (reverse_complement "ACGTmrwsykvhdbN").bind reverse_complement =
      Except.ok "ACGTmrwsykvhdbN" :=
  reverse_complement_involution "ACGTmrwsykvhdbN" (by decide)

/-- C7: `reverse_complement` fails exactly when some input character is
outside the complement table, the reported character is an offending one
from the input, and on fully supported input it returns a result. -/
theorem reverse_complement_invalid_char (s : String) :
    ((∃ e, reverse_complement s = Except.error e) ↔ ∃ c ∈ s.data, complement c = none) ∧
    (∀ e, reverse_complement s = Except.error e → e ∈ s.data ∧ complement e = none) ∧
    ((∀ c ∈ s.data, (complement c).isSome) → ∃ t, reverse_complement s = Except.ok t) := by
  have herr : ∀ e, reverse_complement s = Except.error e ↔
      rcAux s.data.reverse = Except.error e := by
    intro e
    cases h : rcAux s.data.reverse with
    | ok v => simp [reverse_complement, h]
    | error e' => simp [reverse_complement, h]
  refine ⟨⟨?_, ?_⟩, ?_, ?_⟩
  · rintro ⟨e, he⟩
    obtain ⟨h1, h2⟩ := rcAux_error_mem _ e ((herr e).mp he)
    exact ⟨e, List.mem_reverse.mp h1, h2⟩
  · rintro ⟨c, hc, hbad⟩
    obtain ⟨e, he⟩ := rcAux_error_of_bad s.data.reverse ⟨c, List.mem_reverse.mpr hc, hbad⟩
    exact ⟨e, (herr e).mpr he⟩
  · intro e he
    obtain ⟨h1, h2⟩ := rcAux_error_mem _ e ((herr e).mp he)
    exact ⟨List.mem_reverse.mp h1, h2⟩
  · intro hgood
    exact ⟨rcF s, reverse_complement_eq_ok hgood⟩

/-- Witness for C7: the unsupported `X` is reported, and a fully supported
string succeeds. -/
theorem reverse_complement_invalid_char_witness :
    ('X' ∈ ("AXA" : String).data ∧ complement 'X' = none) ∧
    (∃ t, reverse_complement "ACGT" = Except.ok t) :=
  ⟨(reverse_complement_invalid_char "AXA").2.1 'X' (by rfl),
    (reverse_complement_invalid_char "ACGT").2.2 (by decide)⟩

/-! ### Lemmas about the recognized k-mer keys -/

/-- Membership in `mersLists k`: exactly the length-`k` lists over a,t,c,g. -/
theorem mem_mersLists {k : Nat} {l : List Char} :
    l ∈ mersLists k ↔ l.length = k ∧ ∀ c ∈ l, c ∈ (['a', 't', 'c', 'g'] : List Char) := by
  induction k generalizing l with
  | zero =>
    simp only [mersLists, List.mem_singleton]
    constructor
    · rintro rfl; simp
    · rintro ⟨hlen, -⟩; exact List.length_eq_zero.mp hlen
  | succ k ih =>
    simp only [mersLists, List.mem_flatMap, List.mem_map]
    constructor
    · rintro ⟨c, hc, l', hl', rfl⟩
      obtain ⟨hlen, hall⟩ := ih.mp hl'
      refine ⟨by simp [hlen], ?_⟩
      intro x hx
      rcases List.mem_cons.mp hx with rfl | hx
      · exact hc
      · exact hall x hx
    · rintro ⟨hlen, hall⟩
      cases l with
      | nil => simp at hlen
      | cons c l' =>
        exact ⟨c, hall c (by simp),
          ⟨l', ih.mpr ⟨by simpa using hlen, fun x hx => hall x (by simp [hx])⟩, rfl⟩⟩

/-- The tuples produced by the `itertools.product` loop are distinct. -/
theorem nodup_mersLists (k : Nat) : (mersLists k).Nodup := by
  induction k with
  | zero => simp [mersLists]
  | succ k ih =>
    rw [mersLists]
    rw [List.nodup_flatMap]
    refine ⟨fun c _ => ih.map fun a b h => by injection h, ?_⟩
    have hdisj : ∀ c d : Char, c ≠ d →
        List.Disjoint ((mersLists k).map (c :: ·)) ((mersLists k).map (d :: ·)) := by
      intro c d hcd
      rw [List.disjoint_left]
      intro l hl1 hl2
      simp only [List.mem_map] at hl1 hl2
      obtain ⟨a, -, rfl⟩ := hl1
      obtain ⟨b, -, hb⟩ := hl2
      exact hcd (by injection hb.symm)
    have hne : List.Pairwise (· ≠ ·) (['a', 't', 'c', 'g'] : List Char) := by decide
    exact hne.imp fun {c d} h => hdisj c d h

/-- Membership in `allMers k`: strings whose characters are a length-`k`
word over a,t,c,g. -/
theorem mem_allMers {k : Nat} {m : String} :
    m ∈ allMers k ↔ m.data.length = k ∧ ∀ c ∈ m.data, c ∈ (['a', 't', 'c', 'g'] : List Char) := by
  rw [← mem_mersLists]
  simp only [allMers, List.mem_map]
  constructor
  · rintro ⟨l, hl, rfl⟩; exact hl
  · intro h; exact ⟨m.data, h, rfl⟩

/-- The recognized keys are distinct. -/
theorem nodup_allMers (k : Nat) : (allMers k).Nodup :=
  (nodup_mersLists k).map fun a b h => by injection h

/-- The ambiguous bucket is not a recognized k-mer key. -/
theorem amb_not_mem_allMers (k : Nat) : MerCounter.amb ∉ allMers k := by
  intro h
  have := (mem_allMers.mp h).2 '_' (by decide)
  simp at this

/-- a,t,c,g have complements. -/
theorem atcg_good : ∀ c ∈ (['a', 't', 'c', 'g'] : List Char), (complement c).isSome := by decide

/-- The complement of a,t,c,g stays in a,t,c,g. -/
theorem atcg_compD : ∀ c ∈ (['a', 't', 'c', 'g'] : List Char),
    compD c ∈ (['a', 't', 'c', 'g'] : List Char) := by decide

/-- The reverse complement of a recognized key is a recognized key. -/
theorem rcF_mem_allMers {k : Nat} {m : String} (h : m ∈ allMers k) :
    rcF m ∈ allMers k := by
  obtain ⟨hlen, hall⟩ := mem_allMers.mp h
  refine mem_allMers.mpr ⟨by simp [rcF, hlen], ?_⟩
  intro c hc
  simp only [rcF, List.mem_map, List.mem_reverse] at hc
  obtain ⟨x, hx, rfl⟩ := hc
  exact atcg_compD x (hall x hx)

/-- `rcF` is an involution on supported strings. -/
theorem rcF_rcF {s : String} (h : ∀ c ∈ s.data, (complement c).isSome) :
    rcF (rcF s) = s := by
  show (⟨(rcF s).data.reverse.map compD⟩ : String) = s
  have : (rcF s).data.reverse.map compD = s.data := by
    show ((s.data.reverse.map compD : List Char)).reverse.map compD = s.data
    rw [← List.map_reverse, List.reverse_reverse, List.map_map]
    calc s.data.map (compD ∘ compD)
        = s.data.map id := by
          apply List.map_congr_left
          intro x hx
          exact (compD_compD (h x hx)).2
      _ = s.data := List.map_id s.data
  rw [this]

/-- Recognized keys are supported by the complement table. -/
theorem mem_allMers_good {k : Nat} {m : String} (h : m ∈ allMers k) :
    ∀ c ∈ m.data, (complement c).isSome :=
  fun c hc => atcg_good c ((mem_allMers.mp h).2 c hc)

/-- `reverse_complement` succeeds on recognized keys and computes `rcF`. -/
theorem rc_ok_of_mem {k : Nat} {m : String} (h : m ∈ allMers k) :
    reverse_complement m = Except.ok (rcF m) :=
  reverse_complement_eq_ok (mem_allMers_good h)

/-- `rcF` is an involution on recognized keys. -/
theorem rcF_rcF_of_mem {k : Nat} {m : String} (h : m ∈ allMers k) :
    rcF (rcF m) = m :=
  rcF_rcF (mem_allMers_good h)

/-! ### Lemmas about the Python string comparison -/

/-- Unfolding equations for `lexLtb`. -/
theorem lexLtb_cons (c d : Char) (t u : List Char) :
    lexLtb (c :: t) (d :: u) =
      if c < d then true else if d < c then false else lexLtb t u := rfl

/-- `lexLtb` is irreflexive. -/
theorem lexLtb_irrefl : ∀ l : List Char, lexLtb l l = false := by
  intro l
  induction l with
  | nil => rfl
  | cons c t ih => simp [lexLtb_cons, ih]

/-- `lexLtb` is asymmetric. -/
theorem lexLtb_asymm : ∀ a b : List Char, lexLtb a b = true → lexLtb b a = false := by
  intro a
  induction a with
  | nil =>
    intro b h
    cases b with
    | nil => exact absurd h (by simp [lexLtb])
    | cons c t => rfl
  | cons c t ih =>
    intro b h
    cases b with
    | nil => exact absurd h (by simp [show lexLtb (c :: t) [] = false from rfl])
    | cons d u =>
      rw [lexLtb_cons] at h ⊢
      rcases lt_trichotomy c d with hcd | hcd | hcd
      · simp [hcd, not_lt.mpr hcd.le, ne_of_gt hcd] at h ⊢
      · subst hcd
        simp only [lt_irrefl, if_false] at h ⊢
        exact ih u h
      · simp [hcd, not_lt.mpr hcd.le] at h
  
/-- Distinct lists are `lexLtb`-comparable. -/
theorem lexLtb_total : ∀ a b : List Char, a ≠ b →
    lexLtb a b = true ∨ lexLtb b a = true := by
  intro a
  induction a with
  | nil =>
    intro b hab
    cases b with
    | nil => exact absurd rfl hab
    | cons d u => left; rfl
  | cons c t ih =>
    intro b hab
    cases b with
    | nil => right; rfl
    | cons d u =>
      rcases lt_trichotomy c d with hcd | hcd | hcd
      · left; simp [lexLtb_cons, hcd]
      · subst hcd
        have htu : t ≠ u := fun h => hab (by rw [h])
        rcases ih u htu with h | h
        · left; simpa [lexLtb_cons, lt_irrefl] using h
        · right; simpa [lexLtb_cons, lt_irrefl] using h
      · right; simp [lexLtb_cons, hcd, not_lt.mpr hcd.le]

/-- The `key != min(key, rc_key)` test of `export` holds exactly when the
reverse complement is lexicographically smaller than the key. -/
theorem pyMin_ne_iff (key rc : String) :
    (key ≠ pyMin key rc) ↔ lexLtb rc.data key.data = true := by
  unfold pyMin pyLt
  by_cases h : lexLtb rc.data key.data = true
  · simp only [h, if_true, iff_true]
    intro hkey
    rw [hkey] at h
    simp [lexLtb_irrefl] at h
  · have hf : lexLtb rc.data key.data = false := by
      cases hb : lexLtb rc.data key.data
      · rfl
      · exact absurd hb h
    simp [hf]

/-! ### The `export` canonicalization (C1) -/

/-- Strings with equal character data are equal. -/
theorem string_data_inj {a b : String} (h : a.data = b.data) : a = b :=
  congrArg String.mk h

/-- Congruence for the entry shape of `exportInv` under equivalent
conditions. -/
theorem invEntry_congr {c c' e e' : Prop} [Decidable c] [Decidable c']
    [Decidable e] [Decidable e'] (hc : c ↔ c') (he : e ↔ e') (a b : Nat) :
    (if c then none else some (a + if e then b else 0)) =
    (if c' then none else some (a + if e' then b else 0)) :=
  if_congr hc rfl (by rw [if_congr he rfl rfl])

/-- Processing one recognized key preserves the invariant. -/
theorem export_step_inv {k : Nat} {f : String → Nat} {p : List String}
    {d : String → Option Nat} {key : String}
    (hmem : key ∈ allMers k) (hnp : key ∉ p) (hinv : exportInv k f p d) :
    ∃ d', MerCounter.export_step d key = Except.ok d' ∧
      exportInv k f (p ++ [key]) d' := by
  obtain ⟨hamb, hall, hnone⟩ := hinv
  have hkamb : key ≠ MerCounter.amb := fun h => amb_not_mem_allMers k (h ▸ hmem)
  have hrcmem : rcF key ∈ allMers k := rcF_mem_allMers hmem
  have hinvol : rcF (rcF key) = key := rcF_rcF_of_mem hmem
  have hrcamb : rcF key ≠ MerCounter.amb := fun h => amb_not_mem_allMers k (h ▸ hrcmem)
  have hstep : MerCounter.export_step d key =
      if key ≠ pyMin key (rcF key) then
        Except.ok (dict_pop (dict_addTo d (rcF key) ((d key).getD 0)) key)
      else Except.ok d := by
    simp only [MerCounter.export_step, if_neg hkamb, rc_ok_of_mem hmem]
  have hmemp' : ∀ s : String, s ∈ p ++ [key] ↔ s ∈ p ∨ s = key := by
    intro s
    simp [List.mem_append]
  have hkeyp' : key ∈ p ++ [key] := by simp
  by_cases hlt : lexLtb (rcF key).data key.data = true
  · -- the key is above its partner: pop it, absorb its count
    have hcond : key ≠ pyMin key (rcF key) := (pyMin_ne_iff key (rcF key)).mpr hlt
    have hkne : key ≠ rcF key := by
      intro h
      rw [← h] at hlt
      simp [lexLtb_irrefl] at hlt
    have hltf : lexLtb key.data (rcF key).data = false := lexLtb_asymm _ _ hlt
    have hdkey : d key = some (f key) := by
      have h := hall key hmem
      simpa [hnp, hltf] using h
    have hdrc : d (rcF key) = some (f (rcF key)) := by
      have h := hall (rcF key) hrcmem
      simpa [hinvol, hltf, hnp] using h
    refine ⟨_, by rw [hstep, if_pos hcond], ?_, ?_, ?_⟩
    · -- ambiguous bucket untouched
      simp [dict_pop, dict_addTo, Ne.symm hkamb, Ne.symm hrcamb, hamb]
    · intro s hs
      by_cases hskey : s = key
      · subst hskey
        simp [dict_pop, hkeyp', hlt]
      · by_cases hsrc : s = rcF key
        · subst hsrc
          have hrckey : rcF key ≠ key := Ne.symm hkne
          have hLHS : dict_pop (dict_addTo d (rcF key) ((d key).getD 0)) key (rcF key) =
              some (f (rcF key) + f key) := by
            simp [dict_pop, hrckey, dict_addTo, hdrc, hdkey]
          rw [hLHS, hinvol]
          have houter : ¬(rcF key ∈ p ++ [key] ∧ lexLtb key.data (rcF key).data = true) := by
            rw [hltf]
            simp
          have hinner : key ∈ p ++ [key] ∧ lexLtb (rcF key).data key.data = true :=
            ⟨hkeyp', hlt⟩
          rw [if_neg houter, if_pos hinner]
        · have hrcne : rcF s ≠ key := by
            intro h
            apply hsrc
            have h2 := congrArg rcF h
            rw [rcF_rcF_of_mem hs] at h2
            exact h2
          have hLHS : dict_pop (dict_addTo d (rcF key) ((d key).getD 0)) key s = d s := by
            simp [dict_pop, hskey, dict_addTo, hsrc]
          rw [hLHS, hall s hs]
          exact invEntry_congr
            (and_congr_left' (by rw [hmemp' s]; simp [hskey]))
            (and_congr_left' (by rw [hmemp' (rcF s)]; simp [hrcne])) _ _
    · intro s hs hsamb
      have hskey : s ≠ key := fun h => hs (h ▸ hmem)
      have hsrc : s ≠ rcF key := fun h => hs (h ▸ hrcmem)
      have hLHS : dict_pop (dict_addTo d (rcF key) ((d key).getD 0)) key s = d s := by
        simp [dict_pop, hskey, dict_addTo, hsrc]
      rw [hLHS]
      exact hnone s hs hsamb
  · -- the key is canonical (or palindromic): untouched
    have hltf2 : lexLtb (rcF key).data key.data = false := by
      cases h : lexLtb (rcF key).data key.data
      · rfl
      · exact absurd h hlt
    have hcond : ¬key ≠ pyMin key (rcF key) := fun hc => hlt ((pyMin_ne_iff _ _).mp hc)
    refine ⟨d, by rw [hstep, if_neg hcond], hamb, ?_, hnone⟩
    intro s hs
    rw [hall s hs]
    by_cases hskey : s = key
    · subst hskey
      by_cases hpal : rcF s = s
      · rw [hpal]
        refine invEntry_congr ?_ ?_ _ _
        · rw [lexLtb_irrefl]
          simp
        · rw [lexLtb_irrefl]
          simp
      · refine invEntry_congr ?_ ?_ _ _
        · rw [hltf2]
          simp
        · exact and_congr_left' (by rw [hmemp' (rcF s)]; simp [hpal])
    · by_cases hsrc : s = rcF key
      · subst hsrc
        refine invEntry_congr ?_ ?_ _ _
        · exact and_congr_left' (by rw [hmemp' (rcF key)]; simp [hskey])
        · rw [hinvol, hltf2]
          simp
      · have hrcne : rcF s ≠ key := by
          intro h
          apply hsrc
          have h2 := congrArg rcF h
          rw [rcF_rcF_of_mem hs] at h2
          exact h2
        exact invEntry_congr
          (and_congr_left' (by rw [hmemp' s]; simp [hskey]))
          (and_congr_left' (by rw [hmemp' (rcF s)]; simp [hrcne])) _ _

/-- Skipping the ambiguous bucket preserves the invariant (the processed
list may grow by `amb`, which no condition of the invariant mentions). -/
theorem exportInv_append_amb {k : Nat} {f : String → Nat} {p : List String}
    {d : String → Option Nat} (hinv : exportInv k f p d) :
    exportInv k f (p ++ [MerCounter.amb]) d := by
  obtain ⟨hamb, hall, hnone⟩ := hinv
  refine ⟨hamb, ?_, hnone⟩
  intro s hs
  rw [hall s hs]
  have hsamb : s ≠ MerCounter.amb := fun h => amb_not_mem_allMers k (h ▸ hs)
  have hrcamb : rcF s ≠ MerCounter.amb :=
    fun h => amb_not_mem_allMers k (h ▸ rcF_mem_allMers hs)
  exact invEntry_congr
    (and_congr_left' (by simp [List.mem_append, hsamb]))
    (and_congr_left' (by simp [List.mem_append, hrcamb])) _ _

/-- The `export` loop over any fragment of the key list keeps the
invariant and never raises. -/
theorem export_fold_inv {k : Nat} {f : String → Nat} :
    ∀ (l p : List String) (d : String → Option Nat),
      (∀ x ∈ l, x ∈ allMers k ∨ x = MerCounter.amb) →
      (∀ x ∈ l, x ∉ p) → l.Nodup → exportInv k f p d →
      ∃ d', List.foldlM MerCounter.export_step d l = Except.ok d' ∧
        exportInv k f (p ++ l) d' := by
  intro l
  induction l with
  | nil =>
    intro p d _ _ _ hinv
    exact ⟨d, rfl, by simpa using hinv⟩
  | cons a l ih =>
    intro p d hl hp hnd hinv
    have hstep : ∃ d1, MerCounter.export_step d a = Except.ok d1 ∧
        exportInv k f (p ++ [a]) d1 := by
      rcases hl a (by simp) with ha | ha
      · exact export_step_inv ha (hp a (by simp)) hinv
      · subst ha
        exact ⟨d, by simp [MerCounter.export_step], exportInv_append_amb hinv⟩
    obtain ⟨d1, hd1, hinv1⟩ := hstep
    have hp1 : ∀ x ∈ l, x ∉ p ++ [a] := by
      intro x hx
      simp only [List.mem_append, List.mem_singleton]
      rintro (h | rfl)
      · exact hp x (by simp [hx]) h
      · exact (List.nodup_cons.mp hnd).1 hx
    obtain ⟨d', hfold, hinv'⟩ := ih (p ++ [a]) d1
      (fun x hx => hl x (by simp [hx])) hp1 (List.nodup_cons.mp hnd).2 hinv1
    refine ⟨d', ?_, ?_⟩
    · rw [List.foldlM_cons, hd1]
      exact hfold
    · rw [List.append_assoc] at hinv'
      simpa using hinv'

/-- C1: `export()` of any raw `MerCounter` histogram succeeds and returns
the canonical histogram: the ambiguous bucket passes through unchanged;
for every recognized k-mer `m` with reverse complement `rc_m`, if `m` is
palindromic (`rc_m = m`) its key and count are kept, and otherwise exactly
the lexicographically smaller of `{m, rc_m}` is present, holding the sum
of the two raw counts, while the larger is absent. -/
theorem export_canonical (k : Nat) (f : String → Nat) :
    ∃ out, MerCounter.export_counts ⟨k, rawHist k f⟩ = Except.ok out ∧
      out MerCounter.amb = some (f MerCounter.amb) ∧
      (∀ m rc_m, m ∈ allMers k → reverse_complement m = Except.ok rc_m →
        (rc_m = m → out m = some (f m)) ∧
        (rc_m ≠ m →
          (lexLtb m.data rc_m.data = true →
            out m = some (f m + f rc_m) ∧ out rc_m = none) ∧
          (lexLtb rc_m.data m.data = true →
            out rc_m = some (f rc_m + f m) ∧ out m = none))) := by
  have hinv0 : exportInv k f [] (rawHist k f) := by
    refine ⟨by simp [rawHist], ?_, ?_⟩
    · intro s hs
      simp [rawHist, hs]
    · intro s hs hsamb
      simp [rawHist, hs, hsamb]
  have hl : ∀ x ∈ allMers k ++ [MerCounter.amb],
      x ∈ allMers k ∨ x = MerCounter.amb := by
    intro x hx
    rcases List.mem_append.mp hx with h | h
    · exact Or.inl h
    · exact Or.inr (by simpa using h)
  have hnd : (allMers k ++ [MerCounter.amb]).Nodup := by
    rw [List.nodup_append]
    refine ⟨nodup_allMers k, by simp, ?_⟩
    intro x hx
    simp only [List.mem_singleton]
    intro h
    exact amb_not_mem_allMers k (h ▸ hx)
  obtain ⟨out, hfold, hinv⟩ := export_fold_inv (allMers k ++ [MerCounter.amb]) []
    (rawHist k f) hl (by simp) hnd hinv0
  obtain ⟨hamb, hall, -⟩ := hinv
  refine ⟨out, hfold, hamb, ?_⟩
  intro m rc_m hm hrc
  have hrceq : rc_m = rcF m := by
    rw [rc_ok_of_mem hm] at hrc
    exact (Except.ok.injEq _ _).mp hrc.symm
  subst hrceq
  have hmm : m ∈ [] ++ (allMers k ++ [MerCounter.amb]) := by simp [hm]
  have hrcm : rcF m ∈ [] ++ (allMers k ++ [MerCounter.amb]) := by
    simp [rcF_mem_allMers hm]
  have hOut : ∀ s ∈ allMers k,
      out s = if lexLtb (rcF s).data s.data = true then none
        else some (f s + if lexLtb s.data (rcF s).data = true then f (rcF s) else 0) := by
    intro s hs
    rw [hall s hs]
    have hsmem : s ∈ [] ++ (allMers k ++ [MerCounter.amb]) := by simp [hs]
    have hrcsmem : rcF s ∈ [] ++ (allMers k ++ [MerCounter.amb]) := by
      simp [rcF_mem_allMers hs]
    exact invEntry_congr
      (and_iff_right hsmem) (and_iff_right hrcsmem) _ _
  refine ⟨?_, ?_⟩
  · intro hpal
    rw [hOut m hm, hpal, lexLtb_irrefl]
    simp
  · intro hne
    have hdne : (rcF m).data ≠ m.data := fun h => hne (string_data_inj h)
    constructor
    · intro hlt
      have hltf : lexLtb (rcF m).data m.data = false := lexLtb_asymm _ _ hlt
      constructor
      · rw [hOut m hm, hltf, hlt]
        simp
      · rw [hOut (rcF m) (rcF_mem_allMers hm), rcF_rcF_of_mem hm, hlt]
        simp
    · intro hlt
      have hltf : lexLtb m.data (rcF m).data = false := lexLtb_asymm _ _ hlt
      constructor
      · rw [hOut (rcF m) (rcF_mem_allMers hm), rcF_rcF_of_mem hm, hlt, hltf]
        simp
      · rw [hOut m hm, hlt]
        simp

/-- Witness for C1 at `k = 1` with raw counts a=3, t=5: the canonical
histogram keeps `a` with 3+5 and drops `t`; the ambiguous bucket is
unchanged. -/
theorem export_canonical_witness :
    (MerCounter.export_counts
        ⟨1, rawHist 1 fun s => if s = "a" then 3 else if s = "t" then 5 else 0⟩).map
      (fun out => (out "a", out "t", out MerCounter.amb)) =
    Except.ok (some 8, none, some 0) := by
  obtain ⟨out, hok, hamb, hmers⟩ :=
    export_canonical 1 fun s => if s = "a" then 3 else if s = "t" then 5 else 0
  have h := (hmers "a" "t" (by decide) (by rfl)).2 (by decide)
  have h2 := h.1 (by decide)
  rw [hok]
  simp only [Except.map]
  rw [h2.1, h2.2, hamb]
  exact congrArg Except.ok (by decide)

/-! ### The window count of `add_sequence` (C2) -/

/-- `add_mer` does not change the word length. -/
theorem add_mer_k (mc : MerCounter) (mer : String) :
    (mc.add_mer mer).k = mc.k := by
  cases h : mc.counts mer <;> simp [MerCounter.add_mer, h]

/-- Bumping one member of a duplicate-free list by one bumps the sum. -/
theorem sum_map_update {l : List String} {g g' : String → Nat} {x : String}
    (hnd : l.Nodup) (hx : x ∈ l) (hother : ∀ y ∈ l, y ≠ x → g' y = g y)
    (hbump : g' x = g x + 1) :
    (l.map g').sum = (l.map g).sum + 1 := by
  induction l with
  | nil => simp at hx
  | cons a l ih =>
    obtain ⟨hna, hndl⟩ := List.nodup_cons.mp hnd
    rcases List.mem_cons.mp hx with rfl | hx'
    · have hrest : ∀ y ∈ l, g' y = g y := fun y hy =>
        hother y (by simp [hy]) (fun hc => hna (hc ▸ hy))
      have : l.map g' = l.map g := List.map_congr_left hrest
      simp [this, hbump]
      omega
    · have ha : g' a = g a := hother a (by simp) (fun hc => hna (hc ▸ hx'))
      have := ih hndl hx' (fun y hy hne => hother y (by simp [hy]) hne)
      simp only [List.map_cons, List.sum_cons, this, ha]
      omega

/-- The histogram keys are duplicate-free. -/
theorem nodup_histKeys (k : Nat) : (histKeys k).Nodup := by
  rw [histKeys, List.nodup_append]
  refine ⟨nodup_allMers k, by simp, ?_⟩
  intro x hx
  simp only [List.mem_singleton]
  intro h
  exact amb_not_mem_allMers k (h ▸ hx)

/-- `add_mer` keeps the key set. -/
theorem add_mer_keyed {mc : MerCounter} (h : KeyedHist mc) (mer : String) :
    KeyedHist (mc.add_mer mer) := by
  intro s
  cases hc : mc.counts mer with
  | some n =>
    have hmem : mer ∈ allMers mc.k ∨ mer = MerCounter.amb := (h mer).mp (by simp [hc])
    simp only [MerCounter.add_mer, hc, add_mer_k]
    by_cases hs : s = mer
    · subst hs
      simpa using hmem
    · simpa [hs] using h s
  | none =>
    simp only [MerCounter.add_mer, hc]
    by_cases hs : s = MerCounter.amb
    · subst hs
      have hsome : (mc.counts MerCounter.amb).isSome := (h _).mpr (Or.inr rfl)
      simp [Option.isSome_map, hsome]
    · simpa [hs] using h s

/-- Each `add_mer` call increments the histogram total by exactly one:
either a recognized key or the ambiguous bucket is bumped. -/
theorem add_mer_total {mc : MerCounter} (h : KeyedHist mc) (mer : String) :
    histTotal (mc.add_mer mer) = histTotal mc + 1 := by
  cases hc : mc.counts mer with
  | some n =>
    have hmem : mer ∈ allMers mc.k ∨ mer = MerCounter.amb := (h mer).mp (by simp [hc])
    have hmemk : mer ∈ histKeys mc.k := by
      rw [histKeys, List.mem_append]
      rcases hmem with h1 | h1
      · exact Or.inl h1
      · exact Or.inr (by simp [h1])
    unfold histTotal
    rw [add_mer_k]
    refine sum_map_update (nodup_histKeys mc.k) hmemk ?_ ?_
    · intro y _ hy
      simp [MerCounter.add_mer, hc, hy]
    · simp [MerCounter.add_mer, hc]
  | none =>
    have hambk : MerCounter.amb ∈ histKeys mc.k := by simp [histKeys]
    have hsome : (mc.counts MerCounter.amb).isSome := (h _).mpr (Or.inr rfl)
    obtain ⟨v, hv⟩ := Option.isSome_iff_exists.mp hsome
    unfold histTotal
    rw [add_mer_k]
    refine sum_map_update (nodup_histKeys mc.k) hambk ?_ ?_
    · intro y _ hy
      simp [MerCounter.add_mer, hc, hy]
    · simp [MerCounter.add_mer, hc, hv]

/-- Folding `add_mer` over a list of windows preserves `k` and the key
set, and adds the number of windows to the total. -/
theorem foldl_add_mer_total :
    ∀ (l : List String) (mc : MerCounter), KeyedHist mc →
      (l.foldl MerCounter.add_mer mc).k = mc.k ∧
      KeyedHist (l.foldl MerCounter.add_mer mc) ∧
      histTotal (l.foldl MerCounter.add_mer mc) = histTotal mc + l.length := by
  intro l
  induction l with
  | nil => intro mc h; exact ⟨rfl, h, by simp⟩
  | cons a l ih =>
    intro mc h
    obtain ⟨hk, hkeyed, htot⟩ := ih (mc.add_mer a) (add_mer_keyed h a)
    refine ⟨by rw [List.foldl_cons, hk, add_mer_k], hkeyed, ?_⟩
    rw [List.foldl_cons, htot, add_mer_total h a]
    simp only [List.length_cons]
    omega

/-- `__init__` installs exactly the recognized keys plus the bucket. -/
theorem init_keyed (k : Nat) : KeyedHist (MerCounter.init k) := by
  intro s
  by_cases h : s ∈ allMers k ∨ s = MerCounter.amb <;> simp [MerCounter.init, h]

/-- All counters start at zero. -/
theorem init_counts_zero (k : Nat) : ∀ s, ((MerCounter.init k).counts s).getD 0 = 0 := by
  intro s
  by_cases h : s ∈ allMers k ∨ s = MerCounter.amb <;> simp [MerCounter.init, h]

/-- The total of the zero histogram is zero. -/
theorem init_total_zero (k : Nat) : histTotal (MerCounter.init k) = 0 := by
  apply List.sum_eq_zero
  intro x hx
  simp only [List.mem_map] at hx
  obtain ⟨s, -, rfl⟩ := hx
  exact init_counts_zero k s

/-- C2: profiling slides a width-`k` window with step 1, producing
`max(0, L - k + 1)` windows (on ℕ, `L + 1 - k`): all counters start at
zero, each window increments the histogram total by exactly one, the
final total equals the window count, and for `k > L` every count stays
zero. -/
theorem add_sequence_window_count (k : Nat) (text : String) (_hk : 1 ≤ k) :
    (∀ s, ((MerCounter.init k).counts s).getD 0 = 0) ∧
    (gen_mers text k).length = text.length + 1 - k ∧
    (∀ mc : MerCounter, KeyedHist mc →
      ∀ mer, histTotal (mc.add_mer mer) = histTotal mc + 1) ∧
    histTotal ((MerCounter.init k).add_sequence text) = text.length + 1 - k ∧
    (text.length < k →
      ∀ s, (((MerCounter.init k).add_sequence text).counts s).getD 0 = 0) := by
  have hlen : (gen_mers text k).length = text.length + 1 - k := by
    simp [gen_mers]
  refine ⟨init_counts_zero k, hlen, fun mc h mer => add_mer_total h mer, ?_, ?_⟩
  · have h3 := (foldl_add_mer_total (gen_mers text k) (MerCounter.init k) (init_keyed k)).2.2
    rw [MerCounter.add_sequence, show (MerCounter.init k).k = k from rfl]
    rw [h3, init_total_zero k, hlen]
    omega
  · intro hkL s
    have hempty : gen_mers text k = [] := by
      rw [gen_mers]
      have : text.length + 1 - k = 0 := by omega
      rw [this]
      simp
    rw [MerCounter.add_sequence, show (MerCounter.init k).k = k from rfl, hempty]
    simp only [List.foldl_nil]
    exact init_counts_zero k s

/-- Witness for C2 at `k = 2`, text `atcg`: three windows. -/
theorem add_sequence_window_count_witness :
    histTotal ((MerCounter.init 2).add_sequence "atcg") = 3 := by
  have h := (add_sequence_window_count 2 "atcg" (by decide)).2.2.2.1
  simpa using h

/-! ### Chunked storage round trip (C10) -/

/-- `''.join` distributes over cons. -/
theorem pyJoin_cons (a : String) (l : List String) :
    pyJoin (a :: l) = a ++ pyJoin l := by
  apply string_data_inj
  simp [pyJoin, String.data_append]

/-- One step of the chunking loop: the first chunk is `string[0:n]`, the
rest chunks the remainder. -/
theorem chunk_str_unfold (s : String) (n : Nat) (hn : 0 < n) :
    chunk_str s n = if s.data = [] then []
      else (⟨s.data.take n⟩ : String) :: chunk_str ⟨s.data.drop n⟩ n := by
  by_cases hL : s.data = []
  · have hlen : s.length = 0 := by
      show s.data.length = 0
      rw [hL]
      rfl
    simp [chunk_str, pyRangeStep, hlen, Nat.div_eq_of_lt (by omega : n - 1 < n), hL]
  · rw [if_neg hL]
    have hL1 : 1 ≤ s.length := List.length_pos.mpr hL
    have hcount : (s.length + n - 1) / n = (s.length - 1) / n + 1 := by
      have h1 : s.length + n - 1 = (s.length - 1) + n := by omega
      rw [h1, Nat.add_div_right _ hn]
    have hcount' : (((⟨s.data.drop n⟩ : String).length) + n - 1) / n =
        (s.length - 1) / n := by
      have hlen' : (⟨s.data.drop n⟩ : String).length = s.length - n := by
        show (s.data.drop n).length = s.length - n
        rw [List.length_drop]
        rfl
      rw [hlen']
      by_cases hLn : s.length ≤ n
      · have h1 : s.length - n = 0 := by omega
        have h2 : s.length - 1 < n := by omega
        rw [h1, Nat.div_eq_of_lt (by omega : 0 + n - 1 < n), Nat.div_eq_of_lt h2]
      · have h1 : s.length - n + n - 1 = (s.length - n - 1) + n := by omega
        have h2 : s.length - 1 = (s.length - n - 1) + n := by omega
        rw [h1, Nat.add_div_right _ hn, h2, Nat.add_div_right _ hn]
    rw [chunk_str, chunk_str, pyRangeStep, pyRangeStep, hcount, hcount',
      List.range'_succ]
    rw [List.map_cons]
    congr 1
    · simp [pySlice]
    · have hshift : (List.range' 0 ((s.length - 1) / n) n).map (fun x => n + x) =
          List.range' (n + 0) ((s.length - 1) / n) n :=
        List.map_add_range' n 0 _ n
      rw [show n + 0 = 0 + n from by omega] at hshift
      rw [← hshift, List.map_map]
      apply List.map_congr_left
      intro i _
      show pySlice s (n + i) (n + i + n) = pySlice ⟨s.data.drop n⟩ i (i + n)
      apply string_data_inj
      simp only [pySlice, List.drop_drop]
      have h1 : n + i + n - (n + i) = n := by omega
      have h2 : i + n - i = n := by omega
      rw [h1, h2]

/-- Concatenating the chunks of `chunk_str` restores the string. -/
theorem pyJoin_chunk_str : ∀ (N : Nat) (s : String), s.data.length ≤ N →
    ∀ n, 0 < n → pyJoin (chunk_str s n) = s := by
  intro N
  induction N with
  | zero =>
    intro s hs n hn
    have hnil : s.data = [] := List.length_eq_zero.mp (by omega)
    rw [chunk_str_unfold s n hn, if_pos hnil]
    apply string_data_inj
    simp [pyJoin, hnil]
  | succ N ih =>
    intro s hs n hn
    rw [chunk_str_unfold s n hn]
    by_cases hnil : s.data = []
    · rw [if_pos hnil]
      apply string_data_inj
      simp [pyJoin, hnil]
    · rw [if_neg hnil]
      have hpos : 0 < s.data.length := List.length_pos.mpr hnil
      have hrec : (⟨s.data.drop n⟩ : String).data.length ≤ N := by
        simp only [List.length_drop]
        omega
      rw [pyJoin_cons, ih _ hrec n hn]
      apply string_data_inj
      rw [String.data_append]
      exact List.take_append_drop n s.data

/-- Every chunk has at most `n` characters, and none is empty. -/
theorem chunk_str_mem_length {s : String} {n : Nat} (hn : 0 < n) :
    ∀ c ∈ chunk_str s n, c.data.length ≤ n ∧ c ≠ "" := by
  intro c hc
  simp only [chunk_str, List.mem_map] at hc
  obtain ⟨i, hi, rfl⟩ := hc
  simp only [pyRangeStep, List.mem_range'] at hi
  obtain ⟨j, hj, rfl⟩ := hi
  have hjn : n * j + n ≤ s.length + n - 1 := by
    have h2 : (j + 1) * n ≤ ((s.length + n - 1) / n) * n :=
      Nat.mul_le_mul_right n (by omega)
    have h3 : ((s.length + n - 1) / n) * n ≤ s.length + n - 1 :=
      Nat.div_mul_le_self _ n
    calc n * j + n = (j + 1) * n := by ring
      _ ≤ ((s.length + n - 1) / n) * n := h2
      _ ≤ s.length + n - 1 := h3
  have hSL : s.length = s.data.length := rfl
  have hlen : (pySlice s (0 + n * j) (0 + n * j + n)).data.length =
      min n (s.data.length - (0 + n * j)) := by
    simp only [pySlice, List.length_take, List.length_drop]
    congr 1
    omega
  constructor
  · rw [hlen]
    exact min_le_left _ _
  · intro hempty
    rw [hempty] at hlen
    have h0 : ("" : String).data.length = 0 := rfl
    rw [h0] at hlen
    have hmin : 0 < min n (s.data.length - (0 + n * j)) :=
      lt_min hn (by omega)
    omega

/-- All chunks except possibly the last have exactly `n` characters. -/
theorem chunk_str_full_chunks {s : String} {n : Nat} (hn : 0 < n) :
    ∀ i (h : i + 1 < (chunk_str s n).length),
      ((chunk_str s n).get ⟨i, by omega⟩).data.length = n := by
  intro i h
  have hlen : (chunk_str s n).length = (s.length + n - 1) / n := by
    simp [chunk_str, pyRangeStep]
  have hel : (chunk_str s n).get ⟨i, by omega⟩ =
      pySlice s (0 + n * i) (0 + n * i + n) := by
    simp only [chunk_str, List.get_eq_getElem, List.getElem_map, pyRangeStep]
    rw [List.getElem_range']
  rw [hel]
  have hcount : i + 1 < (s.length + n - 1) / n := by rw [← hlen]; exact h
  have h2 : (i + 2) * n ≤ ((s.length + n - 1) / n) * n :=
    Nat.mul_le_mul_right n (by omega)
  have h3 : ((s.length + n - 1) / n) * n ≤ s.length + n - 1 :=
    Nat.div_mul_le_self _ n
  have h4 : n * i + n + n ≤ s.length + n - 1 := by
    calc n * i + n + n = (i + 2) * n := by ring
      _ ≤ ((s.length + n - 1) / n) * n := h2
      _ ≤ s.length + n - 1 := h3
  have hSL : s.length = s.data.length := rfl
  simp only [pySlice, List.length_take, List.length_drop]
  have h5 : 0 + n * i + n - (0 + n * i) = n := by omega
  rw [h5]
  have h6 : n ≤ s.data.length - (0 + n * i) := by omega
  exact min_eq_left h6

/-- `export` cannot raise: every non-bucket key of a `MerCounter` dict is a
recognized mer, whose reverse complement succeeds. -/
theorem export_counts_ok (mc : MerCounter) :
    ∃ d, MerCounter.export_counts mc = Except.ok d := by
  have hfold : ∀ (l : List String) (d : String → Option Nat),
      (∀ x ∈ l, x ∈ allMers mc.k ∨ x = MerCounter.amb) →
      ∃ d', List.foldlM MerCounter.export_step d l = Except.ok d' := by
    intro l
    induction l with
    | nil => intro d _; exact ⟨d, rfl⟩
    | cons a l ih =>
      intro d hl
      have hstep : ∃ d1, MerCounter.export_step d a = Except.ok d1 := by
        rcases hl a (by simp) with ha | ha
        · have hred : MerCounter.export_step d a =
              if a ≠ pyMin a (rcF a) then
                Except.ok (dict_pop (dict_addTo d (rcF a) ((d a).getD 0)) a)
              else Except.ok d := by
            simp only [MerCounter.export_step,
              if_neg (fun h : a = MerCounter.amb => amb_not_mem_allMers mc.k (h ▸ ha)),
              rc_ok_of_mem ha]
          by_cases hc : a ≠ pyMin a (rcF a)
          · exact ⟨_, by rw [hred, if_pos hc]⟩
          · exact ⟨d, by rw [hred, if_neg hc]⟩
        · exact ⟨d, by rw [MerCounter.export_step, if_pos ha]⟩
      obtain ⟨d1, hd1⟩ := hstep
      obtain ⟨d', hd'⟩ := ih d1 fun x hx => hl x (by simp [hx])
      refine ⟨d', ?_⟩
      rw [List.foldlM_cons, hd1]
      exact hd'
  apply hfold
  intro x hx
  rcases List.mem_append.mp hx with h | h
  · exact Or.inl h
  · exact Or.inr (by simpa using h)

/-- The k-mer loop of `calculate_and_set_meta` cannot raise. -/
theorem kmer_fold_ok (seq : String) :
    ∀ (ks : List Nat) (acc : String → Option (String → Option Nat)),
      ∃ c, ks.foldlM (kmer_fold_step seq) acc = Except.ok c := by
  intro ks
  induction ks with
  | nil => intro acc; exact ⟨acc, rfl⟩
  | cons a ks ih =>
    intro acc
    obtain ⟨d, hd⟩ := export_counts_ok ((MerCounter.init a).add_sequence seq)
    obtain ⟨c, hc⟩ := ih fun s => if s = toString a then some d else acc s
    refine ⟨c, ?_⟩
    rw [List.foldlM_cons]
    rw [show kmer_fold_step seq acc a =
      Except.ok fun s => if s = toString a then some d else acc s from by
        rw [kmer_fold_step, hd]]
    exact hc

/-- `calculate_and_set_meta` succeeds and leaves the header fields and
`total_bp` untouched. -/
theorem calculate_ok (self : MetaInfoSequence) (seq : String) (sm lm : Nat) :
    ∃ mi, calculate_and_set_meta self seq sm lm = Except.ok mi ∧
      mi.total_bp = self.total_bp ∧ mi.seqid = self.seqid := by
  obtain ⟨c, hc⟩ := kmer_fold_ok seq (List.range' sm (lm + 1 - sm)) fun _ => none
  simp only [calculate_and_set_meta, hc]
  exact ⟨_, rfl, rfl, rfl⟩

/-- `MetaInfoSequence.add_sequence` succeeds, records `total_bp` as the
text length, and derives the seqid from the header. -/
theorem meta_add_sequence_ok (self : MetaInfoSequence) (hdr seq : String)
    (sm lm : Nat) :
    ∃ mi, MetaInfoSequence.add_sequence self hdr seq sm lm = Except.ok mi ∧
      mi.total_bp = seq.length ∧
      mi.seqid = (⟨(splitChar ' ' hdr.data).headD []⟩ : String) := by
  obtain ⟨mi, hmi, htot, hsid⟩ := calculate_ok
    { self with
      deprecated_header := hdr
      seqid := ⟨(splitChar ' ' hdr.data).headD []⟩
      total_bp := seq.length }
    (pyLower seq) sm lm
  exact ⟨mi, hmi, htot, hsid⟩

/-- `StructuredSequence.add_sequence` succeeds, appends the single
unsliced slice, and records the text length. -/
theorem seq_add_sequence_ok (self : StructuredSequence) (hdr seq : String)
    (sm lm : Nat) :
    ∃ s', StructuredSequence.add_sequence self hdr seq sm lm = Except.ok s' ∧
      s'.meta_info.total_bp = seq.length ∧
      s'.slices = self.slices ++
        [SequenceSlice.add_sequence seq s'.meta_info.seqid] := by
  obtain ⟨mi, hmi, htot, -⟩ := meta_add_sequence_ok MetaInfoSequence.init hdr seq sm lm
  simp only [StructuredSequence.add_sequence, hmi]
  exact ⟨_, rfl, htot, rfl⟩

/-- C10: chunked slice storage round-trips — the chunks of
`chunk_str(s, 100)` are non-empty, at most 100 characters (all but
possibly the last exactly 100), their concatenation is `s`, and for a
freshly ingested sequence (holding its initial single unsliced slice)
`full_sequence()` returns exactly the original text. -/
theorem chunk_str_round_trip (s : String) :
    pyJoin (chunk_str s 100) = s ∧
    (∀ c ∈ chunk_str s 100, c.data.length ≤ 100 ∧ c ≠ "") ∧
    (∀ i (h : i + 1 < (chunk_str s 100).length),
      ((chunk_str s 100).get ⟨i, by omega⟩).data.length = 100) ∧
    (∀ hdr : String,
      (StructuredSequence.add_sequence StructuredSequence.init hdr s 2 2).map
        full_sequence = Except.ok s) := by
  refine ⟨pyJoin_chunk_str s.data.length s le_rfl 100 (by omega),
    chunk_str_mem_length (by omega),
    chunk_str_full_chunks (by omega), ?_⟩
  intro hdr
  obtain ⟨s', hs', -, hslices⟩ :=
    seq_add_sequence_ok StructuredSequence.init hdr s 2 2
  rw [hs']
  simp only [Except.map]
  congr 1
  rw [full_sequence, hslices]
  show pyJoin ((([] : List SequenceSlice) ++
    [SequenceSlice.add_sequence s s'.meta_info.seqid]).flatMap SequenceSlice.sequence) = s
  simp only [List.nil_append, List.flatMap_cons, List.flatMap_nil, List.append_nil]
  show pyJoin (chunk_str s 100) = s
  exact pyJoin_chunk_str s.data.length s le_rfl 100 (by omega)

/-- Witness for C10 on a concrete string: the chunk join and the
ingestion round trip both restore it. -/
theorem chunk_str_round_trip_witness :
    pyJoin (chunk_str "atcgatcg" 100) = "atcgatcg" ∧
    (StructuredSequence.add_sequence StructuredSequence.init "chr1 x" "atcgatcg" 2 2).map
      full_sequence = Except.ok "atcgatcg" :=
  ⟨(chunk_str_round_trip "atcgatcg").1,
    (chunk_str_round_trip "atcgatcg").2.2.2 "chr1 x"⟩

/-- The full text of a freshly ingested sequence is the ingested text. -/
theorem full_sequence_of_ok {hdr s : String} {sm lm : Nat}
    {s' : StructuredSequence}
    (h : StructuredSequence.add_sequence StructuredSequence.init hdr s sm lm =
      Except.ok s') :
    full_sequence s' = s := by
  obtain ⟨s'', hs'', -, hslices⟩ :=
    seq_add_sequence_ok StructuredSequence.init hdr s sm lm
  rw [h] at hs''
  have heq : s' = s'' := by
    injection hs'' with hx
  subst heq
  rw [full_sequence, hslices]
  show pyJoin ((([] : List SequenceSlice) ++
    [SequenceSlice.add_sequence s s'.meta_info.seqid]).flatMap
      SequenceSlice.sequence) = s
  simp only [List.nil_append, List.flatMap_cons, List.flatMap_nil, List.append_nil]
  show pyJoin (chunk_str s 100) = s
  exact pyJoin_chunk_str s.data.length s le_rfl 100 (by omega)

/-- C5: partitioning is deterministic — the derived seed is the content
hash (`H`, abstracting `hashlib.md5(...).hexdigest()`) of the full text
concatenated with the user seed, the divvied coordinates are a function
of `(text, user seed, max_len)` alone, and two ingestions of the same
text (even under different fasta headers) divvy identically. -/
theorem divvy_up_coords_deterministic (H : String → String)
    (hdr1 hdr2 text user_seed : String) (max_len : Nat) :
    (StructuredSequence.add_sequence StructuredSequence.init hdr1 text 2 2).map
      (fun s => seq_hash H s ++ user_seed) = Except.ok (H text ++ user_seed) ∧
    (StructuredSequence.add_sequence StructuredSequence.init hdr1 text 2 2).map
      (fun s => divvy_up_coords H s user_seed max_len) =
      Except.ok (divvy_coordinates (H text ++ user_seed) text.length max_len) ∧
    (StructuredSequence.add_sequence StructuredSequence.init hdr1 text 2 2).map
      (fun s => divvy_up_coords H s user_seed max_len) =
    (StructuredSequence.add_sequence StructuredSequence.init hdr2 text 2 2).map
      (fun s => divvy_up_coords H s user_seed max_len) := by
  obtain ⟨s1, h1, htot1, -⟩ := seq_add_sequence_ok StructuredSequence.init hdr1 text 2 2
  obtain ⟨s2, h2, htot2, -⟩ := seq_add_sequence_ok StructuredSequence.init hdr2 text 2 2
  have hfs1 : full_sequence s1 = text := full_sequence_of_ok h1
  have hfs2 : full_sequence s2 = text := full_sequence_of_ok h2
  refine ⟨?_, ?_, ?_⟩
  · rw [h1]
    simp only [Except.map]
    rw [seq_hash, hfs1]
  · rw [h1]
    simp only [Except.map]
    rw [divvy_up_coords, seq_hash, hfs1, htot1]
  · rw [h1, h2]
    simp only [Except.map]
    rw [divvy_up_coords, divvy_up_coords, seq_hash, seq_hash, hfs1, hfs2,
      htot1, htot2]

/-! ### Tiling of `divvy_up_sequence` (C4) -/

/-- Length of the divvied slice list: one slice per coordinate triple. -/
theorem divvy_slices_length (H : String → String) (self : StructuredSequence)
    (user_seed : String) (max_len : Nat) :
    (divvy_up_sequence H self user_seed max_len).slices.length =
      (self.meta_info.total_bp + max_len - 1) / max_len := by
  simp [divvy_up_sequence, divvy_up_coords, divvy_coordinates,
    List.enum_length]

/-- Coordinates of the `i`-th divvied slice. -/
theorem divvy_slices_get (H : String → String) (self : StructuredSequence)
    (user_seed : String) (max_len : Nat) (i : Nat)
    (h : i < (divvy_up_sequence H self user_seed max_len).slices.length) :
    ((divvy_up_sequence H self user_seed max_len).slices.get ⟨i, h⟩).start =
      i * max_len ∧
    ((divvy_up_sequence H self user_seed max_len).slices.get ⟨i, h⟩).stop =
      min ((i + 1) * max_len) self.meta_info.total_bp := by
  have hlen := divvy_slices_length H self user_seed max_len
  have hi : i < ((self.meta_info.total_bp + max_len - 1) / max_len) := by
    rw [← hlen]; exact h
  constructor <;>
  · simp only [divvy_up_sequence, divvy_up_coords, divvy_coordinates,
      List.get_eq_getElem, List.getElem_map, List.getElem_enum,
      List.getElem_range, SequenceSlice.add_slice]

/-- C4: after `divvy_up_sequence`, the slice list tiles
`[0, total_bp)` in ascending order: empty for `total_bp = 0`, first start
0, consecutive slices share an endpoint, last end `total_bp`, every slice
length in `(0, max_len]`, and a single slice when `total_bp ≤ max_len`. -/
theorem divvy_up_sequence_tiling (H : String → String)
    (self : StructuredSequence) (user_seed : String) (max_len : Nat)
    (hml : 0 < max_len) :
    (self.meta_info.total_bp = 0 →
      (divvy_up_sequence H self user_seed max_len).slices = []) ∧
    (0 < self.meta_info.total_bp →
      (divvy_up_sequence H self user_seed max_len).slices ≠ []) ∧
    (∀ h : 0 < (divvy_up_sequence H self user_seed max_len).slices.length,
      ((divvy_up_sequence H self user_seed max_len).slices.get ⟨0, h⟩).start = 0) ∧
    (∀ h : 0 < (divvy_up_sequence H self user_seed max_len).slices.length,
      ((divvy_up_sequence H self user_seed max_len).slices.get
        ⟨(divvy_up_sequence H self user_seed max_len).slices.length - 1,
          by omega⟩).stop = self.meta_info.total_bp) ∧
    List.Chain' (fun a b => a.stop = b.start)
      (divvy_up_sequence H self user_seed max_len).slices ∧
    (∀ x ∈ (divvy_up_sequence H self user_seed max_len).slices,
      x.start < x.stop ∧ x.stop - x.start ≤ max_len) ∧
    (0 < self.meta_info.total_bp → self.meta_info.total_bp ≤ max_len →
      (divvy_up_sequence H self user_seed max_len).slices.length = 1) := by
  set L := self.meta_info.total_bp with hLdef
  set n := (L + max_len - 1) / max_len with hndef
  have hlen : (divvy_up_sequence H self user_seed max_len).slices.length = n :=
    divvy_slices_length H self user_seed max_len
  have hmul : n * max_len ≤ L + max_len - 1 := Nat.div_mul_le_self _ _
  have hmul2 : L + max_len - 1 < max_len * (n + 1) :=
    Nat.lt_mul_div_succ _ hml
  have hD : L ≤ n * max_len := by
    have hr : max_len * (n + 1) = n * max_len + max_len := by ring
    omega
  have hC : ∀ i, i < n → i * max_len < L := by
    intro i hi
    have h1 : (i + 1) * max_len ≤ n * max_len :=
      Nat.mul_le_mul_right max_len (by omega)
    have h2 : (i + 1) * max_len = i * max_len + max_len := by ring
    omega
  have hB : 0 < L → 0 < n := by
    intro hL
    rw [hndef]
    rw [show (0 : Nat) < (L + max_len - 1) / max_len ↔
      1 ≤ (L + max_len - 1) / max_len from Iff.rfl]
    rw [Nat.le_div_iff_mul_le hml]
    omega
  have hA : L = 0 → n = 0 := by
    intro hL
    rw [hndef, hL]
    exact Nat.div_eq_of_lt (by omega)
  refine ⟨?_, ?_, ?_, ?_, ?_, ?_, ?_⟩
  · intro hL
    exact List.eq_nil_of_length_eq_zero (by rw [hlen]; exact hA hL)
  · intro hL
    exact List.length_pos.mp (by rw [hlen]; exact hB hL)
  · intro h
    rw [(divvy_slices_get H self user_seed max_len 0 h).1]
    omega
  · intro h
    rw [(divvy_slices_get H self user_seed max_len _ (by omega)).2]
    have hn1 : 0 < n := by rw [← hlen]; exact h
    have : (divvy_up_sequence H self user_seed max_len).slices.length - 1 + 1 = n := by
      omega
    rw [this]
    exact min_eq_right hD
  · rw [List.chain'_iff_get]
    intro i hi
    rw [(divvy_slices_get H self user_seed max_len i (by omega)).2,
      (divvy_slices_get H self user_seed max_len (i + 1) (by omega)).1]
    have hi2 : i + 1 < n := by rw [← hlen]; omega
    exact min_eq_left (le_of_lt (hC (i + 1) hi2))
  · intro x hx
    obtain ⟨⟨i, hi⟩, rfl⟩ := List.mem_iff_get.mp hx
    obtain ⟨h1, h2⟩ := divvy_slices_get H self user_seed max_len i hi
    rw [h1, h2]
    have hin : i < n := by rw [← hlen]; exact hi
    have hCL := hC i hin
    have hr : (i + 1) * max_len = i * max_len + max_len := by ring
    constructor
    · exact lt_min (by omega) hCL
    · have := min_le_left ((i + 1) * max_len) L
      omega
  · intro hL hLml
    rw [hlen, hndef]
    have h1 : 0 < (L + max_len - 1) / max_len := by
      rw [show (0 : Nat) < (L + max_len - 1) / max_len ↔
        1 ≤ (L + max_len - 1) / max_len from Iff.rfl]
      rw [Nat.le_div_iff_mul_le hml]
      omega
    have h2 : (L + max_len - 1) / max_len < 2 := by
      rw [Nat.div_lt_iff_lt_mul hml]
      omega
    omega

/-- Witness for C4 at concrete sequences: `total_bp = 0` yields no slices,
a 5 bp sequence with `max_len = 2` tiles with matching endpoints, and a
2 bp sequence with `max_len = 2` yields exactly one slice. -/
theorem divvy_up_sequence_tiling_witness :
    (divvy_up_sequence (fun _ => "h") ⟨[], MetaInfoSequence.init⟩ "u" 2).slices = [] ∧
    List.Chain' (fun a b => a.stop = b.start)
      (divvy_up_sequence (fun _ => "h")
        ⟨[], { MetaInfoSequence.init with total_bp := 5 }⟩ "u" 2).slices ∧
    (divvy_up_sequence (fun _ => "h")
      ⟨[], { MetaInfoSequence.init with total_bp := 2 }⟩ "u" 2).slices.length = 1 :=
  ⟨(divvy_up_sequence_tiling (fun _ => "h") ⟨[], MetaInfoSequence.init⟩ "u" 2
      (by decide)).1 rfl,
    (divvy_up_sequence_tiling (fun _ => "h")
      ⟨[], { MetaInfoSequence.init with total_bp := 5 }⟩ "u" 2 (by decide)).2.2.2.2.1,
    (divvy_up_sequence_tiling (fun _ => "h")
      ⟨[], { MetaInfoSequence.init with total_bp := 2 }⟩ "u" 2
      (by decide)).2.2.2.2.2.2 (by decide) (by decide)⟩

/-! ### Genome-level accumulation (C6) -/

/-- The inner count merge is commutative. -/
theorem add_paired_counts_comm (a b : String → Option Nat) :
    add_paired_counts a b = add_paired_counts b a := by
  funext s
  unfold add_paired_counts
  cases a s <;> cases b s <;> simp [Nat.add_comm]

/-- The inner count merge is associative. -/
theorem add_paired_counts_assoc (a b c : String → Option Nat) :
    add_paired_counts (add_paired_counts a b) c =
    add_paired_counts a (add_paired_counts b c) := by
  funext s
  unfold add_paired_counts
  cases a s <;> cases b s <;> cases c s <;> simp [Nat.add_assoc]

/-- The per-`k` dict merge is commutative. -/
theorem add_paired_dictionaries_comm (a b : String → Option (String → Option Nat)) :
    add_paired_dictionaries a b = add_paired_dictionaries b a := by
  funext s
  unfold add_paired_dictionaries
  cases a s <;> cases b s <;> simp [add_paired_counts_comm]

/-- The per-`k` dict merge is associative. -/
theorem add_paired_dictionaries_assoc (a b c : String → Option (String → Option Nat)) :
    add_paired_dictionaries (add_paired_dictionaries a b) c =
    add_paired_dictionaries a (add_paired_dictionaries b c) := by
  funext s
  unfold add_paired_dictionaries
  cases a s <;> cases b s <;> cases c s <;> simp [add_paired_counts_assoc]

/-- Field-wise extensionality for `MetaInfoGenome`. -/
theorem metaInfoGenome_ext {x y : MetaInfoGenome}
    (h1 : x.total_bp = y.total_bp) (h2 : x.gc_content = y.gc_content)
    (h3 : x.cannonical_kmer_content = y.cannonical_kmer_content)
    (h4 : x.ambiguous_content = y.ambiguous_content)
    (h5 : x.species = y.species) (h6 : x.accession = y.accession)
    (h7 : x.version = y.version) (h8 : x.acquired_from = y.acquired_from) :
    x = y := by
  obtain ⟨⟨xt, xg, xk, xa⟩, xs, xac, xv, xaf⟩ := x
  obtain ⟨⟨yt, yg, yk, ya⟩, ys, yac, yv, yaf⟩ := y
  simp_all

/-- C6: the genome-level merge is commutative (swapping two merges gives
the same genome MetaInfo), grouping-compatible (merging two sequence
MetaInfos first and then into the genome gives the same result), and
folding any permutation of a collection into the empty genome MetaInfo
gives identical results. -/
theorem add_sequence_meta_info_comm :
    (∀ (g : MetaInfoGenome) (a b : MetaInfoSeqLike),
      (g.add_sequence_meta_info a).add_sequence_meta_info b =
      (g.add_sequence_meta_info b).add_sequence_meta_info a) ∧
    (∀ (g : MetaInfoGenome) (a b : MetaInfoSeqLike),
      (g.add_sequence_meta_info a).add_sequence_meta_info b =
      g.add_sequence_meta_info (seqlike_merge a b)) ∧
    (∀ (l l' : List MetaInfoSeqLike), l.Perm l' →
      l.foldl MetaInfoGenome.add_sequence_meta_info MetaInfoGenome.init =
      l'.foldl MetaInfoGenome.add_sequence_meta_info MetaInfoGenome.init) := by
  have hcomm : ∀ (g : MetaInfoGenome) (a b : MetaInfoSeqLike),
      (g.add_sequence_meta_info a).add_sequence_meta_info b =
      (g.add_sequence_meta_info b).add_sequence_meta_info a := by
    intro g a b
    apply metaInfoGenome_ext <;>
      simp [MetaInfoGenome.add_sequence_meta_info]
    · omega
    · omega
    · rw [add_paired_dictionaries_assoc, add_paired_dictionaries_assoc,
        add_paired_dictionaries_comm a.cannonical_kmer_content]
    · omega
  refine ⟨hcomm, ?_, ?_⟩
  · intro g a b
    apply metaInfoGenome_ext <;>
      simp [MetaInfoGenome.add_sequence_meta_info, seqlike_merge]
    · omega
    · omega
    · rw [add_paired_dictionaries_assoc]
    · omega
  · intro l l' h
    induction h with
    | nil => rfl
    | cons x h ih =>
      simp only [List.foldl_cons]
      have hgen : ∀ (g : MetaInfoGenome) (l₁ l₂ : List MetaInfoSeqLike),
          l₁.Perm l₂ →
          l₁.foldl MetaInfoGenome.add_sequence_meta_info g =
          l₂.foldl MetaInfoGenome.add_sequence_meta_info g := by
        intro g l₁ l₂ hp
        induction hp generalizing g with
        | nil => rfl
        | cons y hp ihp => simp only [List.foldl_cons]; exact ihp _
        | swap y z m =>
          simp only [List.foldl_cons]
          rw [hcomm g z y]
        | trans h1 h2 ih1 ih2 => rw [ih1 g, ih2 g]
      exact hgen _ _ _ h
    | swap x y m =>
      simp only [List.foldl_cons]
      rw [hcomm MetaInfoGenome.init y x]
    | trans h1 h2 ih1 ih2 => rw [ih1, ih2]

/-- Witness for C6: folding two concrete sequence MetaInfos in either
order into the empty genome MetaInfo coincides. -/
theorem add_sequence_meta_info_comm_witness :
    ([(⟨1, 2, fun _ => none, 3⟩ : MetaInfoSeqLike), ⟨10, 20, fun _ => none, 30⟩].foldl
      MetaInfoGenome.add_sequence_meta_info MetaInfoGenome.init) =
    ([(⟨10, 20, fun _ => none, 30⟩ : MetaInfoSeqLike), ⟨1, 2, fun _ => none, 3⟩].foldl
      MetaInfoGenome.add_sequence_meta_info MetaInfoGenome.init) :=
  add_sequence_meta_info_comm.2.2 _ _
    (List.Perm.swap (⟨10, 20, fun _ => none, 30⟩ : MetaInfoSeqLike)
      (⟨1, 2, fun _ => none, 3⟩ : MetaInfoSeqLike) [])

/-! ### Species label from the fasta path (C8) -/

/-- Counterexample to C8 as stated: `a.fa.fa` ends with `.fa`, but the
code removes every occurrence of `.fa`, giving `a` rather than the
trailing-suffix strip `a.fa`. -/
theorem species_from_path_counterexample :
    species_from_path "a.fa.fa" = "a" ∧ species_from_path "a.fa.fa" ≠ "a.fa" := by
  constructor
  · rfl
  · intro h
    rw [show species_from_path "a.fa.fa" = "a" from rfl] at h
    simp at h

/-- A shorter suffix of a common list is a suffix of the longer one. -/
theorem suffix_of_suffix_length_le {l₁ l₂ l₃ : List Char}
    (h1 : l₁ <:+ l₃) (h2 : l₂ <:+ l₃) (hl : l₁.length ≤ l₂.length) :
    l₁ <:+ l₂ := by
  rw [← List.reverse_prefix] at h1 h2 ⊢
  exact List.prefix_of_prefix_length_le h1 h2 (by simpa using hl)

/-- `str.replace` leaves a string without the pattern untouched. -/
theorem pyReplaceAux_not_infix (pat rep : List Char) :
    ∀ (fuel : Nat) (s : List Char), s.length ≤ fuel → ¬(pat <:+: s) →
      pyReplaceAux pat rep fuel s = s := by
  intro fuel
  induction fuel with
  | zero =>
    intro s hs _
    cases s with
    | nil => rfl
    | cons c t => simp at hs
  | succ fuel ih =>
    intro s hs hinf
    cases s with
    | nil => rfl
    | cons c t =>
      rw [pyReplaceAux]
      have hpre : ¬pat.isPrefixOf (c :: t) = true := by
        intro hp
        exact hinf (List.IsPrefix.isInfix (List.isPrefixOf_iff_prefix.mp hp))
      rw [if_neg hpre]
      congr 1
      apply ih t (by simpa using hs)
      intro hc
      exact hinf (List.infix_cons hc)

/-- `str.replace` on `stem ++ pat`, when `pat` occurs nowhere else,
replaces exactly the final occurrence. -/
theorem pyReplaceAux_strip (pat rep : List Char) (hpat : pat ≠ []) :
    ∀ (stem : List Char) (fuel : Nat), stem.length + pat.length ≤ fuel →
      ¬(pat <:+: (stem ++ pat.dropLast)) →
      pyReplaceAux pat rep fuel (stem ++ pat) = stem ++ rep := by
  intro stem
  induction stem with
  | nil =>
    intro fuel hfuel hinf
    cases pat with
    | nil => exact absurd rfl hpat
    | cons p ps =>
      simp only [List.nil_append]
      have h1 : 1 ≤ fuel := by
        simp only [List.length_nil, List.length_cons] at hfuel
        omega
      obtain ⟨f, rfl⟩ : ∃ f, fuel = f + 1 := ⟨fuel - 1, by omega⟩
      rw [pyReplaceAux]
      rw [if_pos (List.isPrefixOf_iff_prefix.mpr (List.prefix_refl _))]
      rw [show (p :: ps).drop (p :: ps).length = [] from List.drop_length _]
      rw [show pyReplaceAux (p :: ps) rep f [] = [] from by cases f <;> rfl]
      simp
  | cons c st ih =>
    intro fuel hfuel hinf
    have h1 : 1 ≤ fuel := by
      simp only [List.length_cons] at hfuel
      omega
    obtain ⟨f, rfl⟩ : ∃ f, fuel = f + 1 := ⟨fuel - 1, by omega⟩
    rw [List.cons_append, pyReplaceAux]
    have hpre : ¬pat.isPrefixOf (c :: (st ++ pat)) = true := by
      intro hp
      apply hinf
      have hp' : pat <+: (c :: st) ++ pat := by
        rw [List.cons_append]
        exact List.isPrefixOf_iff_prefix.mp hp
      have hp2 : (c :: st) ++ pat.dropLast <+: (c :: st) ++ pat := by
        obtain ⟨t, ht⟩ := List.dropLast_prefix pat
        exact ⟨t, by rw [List.append_assoc, ht]⟩
      have hlen : pat.length ≤ ((c :: st) ++ pat.dropLast).length := by
        simp only [List.length_append, List.length_cons, List.length_dropLast]
        have : 1 ≤ pat.length := by
          cases pat
          · exact absurd rfl hpat
          · simp
        omega
      have := List.prefix_of_prefix_length_le hp' hp2 hlen
      rw [List.cons_append] at this
      exact this.isInfix
    rw [if_neg hpre]
    rw [ih f (by simp at hfuel ⊢; omega) ?_]
    · rw [List.cons_append]
    · intro hc
      apply hinf
      rw [List.cons_append]
      exact List.infix_cons hc

/-- C8 amended: the species label is derived from the basename by
*removing every occurrence* of `.fasta` when the name ends with `.fasta`,
else of `.fa` when it ends with `.fa` (CPython `str.replace` semantics);
when the suffix substring occurs only as the trailing suffix this equals
stripping that suffix; a name with neither suffix passes through
unchanged; and a set species label is never overwritten. -/
theorem species_from_path_replace_all :
    (∀ stem : String, '/' ∉ stem.data →
      ¬(['.', 'f', 'a'] <:+: (stem.data ++ ['.', 'f'])) →
      species_from_path (stem ++ ".fa") = stem) ∧
    (∀ stem : String, '/' ∉ stem.data →
      ¬(['.', 'f', 'a', 's', 't', 'a'] <:+: (stem.data ++ ['.', 'f', 'a', 's', 't'])) →
      species_from_path (stem ++ ".fasta") = stem) ∧
    (∀ path : String, '/' ∉ path.data →
      ¬(['.', 'f', 'a', 's', 't', 'a'] <:+ path.data) →
      ¬(['.', 'f', 'a'] <:+ path.data) →
      species_from_path path = path) ∧
    (∀ (g : MetaInfoGenome) (path : String), g.species ≠ "" →
      g.maybe_add_info_from_fasta path = g) ∧
    (∀ (g : MetaInfoGenome) (path : String), g.species = "" →
      (g.maybe_add_info_from_fasta path).species = species_from_path path) := by
  refine ⟨?_, ?_, ?_, ?_, ?_⟩
  · intro stem hslash hinf
    have hdata : (stem ++ ".fa").data = stem.data ++ ['.', 'f', 'a'] :=
      String.data_append stem ".fa"
    have hnoslash : '/' ∉ (stem ++ ".fa").data := by
      rw [hdata]
      simp [List.mem_append, hslash]
    have hnofasta : ¬(['.', 'f', 'a', 's', 't', 'a'] <:+ (stem ++ ".fa").data) := by
      rw [hdata]
      intro hsuf
      have hfa : ['.', 'f', 'a'] <:+ stem.data ++ ['.', 'f', 'a'] :=
        List.suffix_append stem.data ['.', 'f', 'a']
      have := suffix_of_suffix_length_le hfa hsuf (by simp)
      revert this
      decide
    have hfa : pyEndswith (stem ++ ".fa") ".fa" = true := by
      apply decide_eq_true
      rw [hdata]
      exact List.suffix_append stem.data ['.', 'f', 'a']
    rw [species_from_path]
    simp only [if_neg hnoslash, pyEndswith, decide_eq_false hnofasta]
    rw [if_neg (by simp), if_pos (show decide (['.', 'f', 'a'] <:+ (stem ++ ".fa").data) = true from by
      rw [hdata]
      exact decide_eq_true (List.suffix_append _ _))]
    apply string_data_inj
    show (pyReplaceAux ".fa".data [] (stem ++ ".fa").data.length
      (stem ++ ".fa").data) = stem.data
    rw [hdata]
    rw [show ((stem.data ++ ['.', 'f', 'a']).length = stem.data.length + 3) from by
      simp]
    rw [show (['.', 'f', 'a'] : List Char) = (['.', 'f', 'a'] : List Char) from rfl] at hinf
    have := pyReplaceAux_strip ['.', 'f', 'a'] [] (by simp) stem.data
      (stem.data.length + 3) (by simp) (by simpa using hinf)
    rw [this]
    simp
  · intro stem hslash hinf
    have hdata : (stem ++ ".fasta").data = stem.data ++ ['.', 'f', 'a', 's', 't', 'a'] :=
      String.data_append stem ".fasta"
    have hnoslash : '/' ∉ (stem ++ ".fasta").data := by
      rw [hdata]
      simp [List.mem_append, hslash]
    have hfasta : pyEndswith (stem ++ ".fasta") ".fasta" = true := by
      apply decide_eq_true
      rw [hdata]
      exact List.suffix_append stem.data _
    rw [species_from_path]
    simp only [if_neg hnoslash]
    rw [if_pos (by rw [show pyEndswith (stem ++ ".fasta") ".fasta" = true from hfasta])]
    apply string_data_inj
    show (pyReplaceAux ".fasta".data [] (stem ++ ".fasta").data.length
      (stem ++ ".fasta").data) = stem.data
    rw [hdata]
    rw [show ((stem.data ++ ['.', 'f', 'a', 's', 't', 'a']).length =
      stem.data.length + 6) from by simp]
    have := pyReplaceAux_strip ['.', 'f', 'a', 's', 't', 'a'] [] (by simp) stem.data
      (stem.data.length + 6) (by simp) (by simpa using hinf)
    rw [this]
    simp
  · intro path hslash hnofasta hnofa
    rw [species_from_path]
    simp only [if_neg hslash, pyEndswith, decide_eq_false hnofasta,
      decide_eq_false hnofa]
    rw [if_neg (by simp), if_neg (by simp)]
  · intro g path hsp
    rw [MetaInfoGenome.maybe_add_info_from_fasta, if_neg hsp]
  · intro g path hsp
    rw [MetaInfoGenome.maybe_add_info_from_fasta, if_pos hsp]

/-- Witness for C8: a well-behaved name strips its suffix, and a set
species label survives. -/
theorem species_from_path_replace_all_witness :
    species_from_path "genome.fa" = "genome" ∧
    ({ MetaInfoGenome.init with species := "x" }).maybe_add_info_from_fasta "y.fa" =
      { MetaInfoGenome.init with species := "x" } :=
  ⟨species_from_path_replace_all.1 "genome" (by decide) (by decide),
    species_from_path_replace_all.2.2.2.1 _ "y.fa" (by simp)⟩

/-! ### Recognized keys are lowercase; non-keys hit the bucket (C9) -/

/-- C9: the recognized keys are exclusively lowercase strings over
a,t,c,g; any window containing an uppercase character is not a key;
`add_mer` on a non-key window bumps only the ambiguous bucket (leaving
every recognized key untouched); and `MetaInfoSequence.add_sequence`
profiles the lower-cased text. -/
theorem mer_keys_lowercase :
    (∀ (k : Nat) (m : String), m ∈ allMers k →
      ∀ c ∈ m.data, c ∈ (['a', 't', 'c', 'g'] : List Char)) ∧
    (∀ (k : Nat) (m : String), (∃ c ∈ m.data, c.isUpper = true) →
      m ∉ allMers k) ∧
    (∀ (mc : MerCounter) (mer : String), mc.counts mer = none →
      (mc.add_mer mer).counts MerCounter.amb =
        (mc.counts MerCounter.amb).map (· + 1) ∧
      ∀ s, s ≠ MerCounter.amb → (mc.add_mer mer).counts s = mc.counts s) ∧
    (∀ (k : Nat) (f : String → Nat) (mer : String),
      mer ∉ allMers k → mer ≠ MerCounter.amb →
      ((⟨k, rawHist k f⟩ : MerCounter).add_mer mer).counts MerCounter.amb =
        some (f MerCounter.amb + 1) ∧
      ∀ m ∈ allMers k,
        ((⟨k, rawHist k f⟩ : MerCounter).add_mer mer).counts m = some (f m)) ∧
    (∀ (hdr seq : String) (k : Nat),
      (MetaInfoSequence.add_sequence MetaInfoSequence.init hdr seq k k).map
        (fun mi => mi.cannonical_kmer_content (toString k)) =
      (MerCounter.export_counts ((MerCounter.init k).add_sequence (pyLower seq))).map
        some) := by
  have hlow : ∀ (k : Nat) (m : String), m ∈ allMers k →
      ∀ c ∈ m.data, c ∈ (['a', 't', 'c', 'g'] : List Char) :=
    fun k m hm => (mem_allMers.mp hm).2
  refine ⟨hlow, ?_, ?_, ?_, ?_⟩
  · rintro k m ⟨c, hc, hup⟩ hmem
    have hm := hlow k m hmem c hc
    have hnup : ∀ c ∈ (['a', 't', 'c', 'g'] : List Char), c.isUpper = false := by decide
    rw [hnup c hm] at hup
    simp at hup
  · intro mc mer hc
    constructor
    · simp [MerCounter.add_mer, hc]
    · intro s hs
      simp [MerCounter.add_mer, hc, hs]
  · intro k f mer hmem hamb
    have hcond : ¬(mer ∈ allMers k ∨ mer = MerCounter.amb) := by
      simp [hmem, hamb]
    constructor
    · simp [MerCounter.add_mer, rawHist, hcond]
    · intro m hm
      have hmne : m ≠ MerCounter.amb := fun h => amb_not_mem_allMers k (h ▸ hm)
      simp [MerCounter.add_mer, rawHist, hcond, hmne, hm]
  · intro hdr seq k
    have hrange : List.range' k (k + 1 - k) = [k] := by
      rw [show k + 1 - k = 1 from by omega]
      rfl
    simp only [MetaInfoSequence.add_sequence, calculate_and_set_meta, hrange]
    cases hex : MerCounter.export_counts ((MerCounter.init k).add_sequence (pyLower seq)) with
    | ok d =>
      have hfold : List.foldlM (kmer_fold_step (pyLower seq))
          (fun _ => (none : Option (String → Option Nat))) [k] =
          Except.ok (fun s => if s = toString k then some d else none) := by
        simp only [List.foldlM_cons, kmer_fold_step, hex, List.foldlM_nil]
        rfl
      rw [hfold]
      simp [Except.map]
    | error e =>
      have hfold : List.foldlM (kmer_fold_step (pyLower seq))
          (fun _ => (none : Option (String → Option Nat))) [k] = Except.error e := by
        simp only [List.foldlM_cons, kmer_fold_step, hex, List.foldlM_nil]
        rfl
      rw [hfold]
      simp [Except.map]

/-- Witness for C9: the uppercase window `AT` is not a key of a
2-mer counter and lands in the ambiguous bucket, while the key `at`
keeps its count. -/
theorem mer_keys_lowercase_witness :
    ((⟨2, rawHist 2 fun _ => 0⟩ : MerCounter).add_mer "AT").counts MerCounter.amb =
      some 1 ∧
    ((⟨2, rawHist 2 fun _ => 0⟩ : MerCounter).add_mer "AT").counts "at" = some 0 := by
  have h := mer_keys_lowercase.2.2.2.1 2 (fun _ => 0) "AT" (by decide) (by decide)
  exact ⟨h.1, h.2 "at" (by decide)⟩
